import Mathlib

/-!
Verification of the manifest reconciliation engine of
`lib/googlecloudsdk/api_lib/compute/containers_utils.py`.

Strings are modelled as `List Char` (`Str`): every Python string operation
used by the source (indexing, slicing, `find`, `startswith`, `endswith`,
iteration) becomes the corresponding list operation, which keeps all
definitions computable and all concrete evaluations kernel-reducible.

Python `dict`s are modelled as insertion-ordered association lists
(`PyDict`): assigning to an existing key overwrites the value in place,
assigning a fresh key appends, `pop` removes the (unique) matching entry.
This matches CPython dict semantics used by the source, where dicts are
only ever built by such assignments (hence have no duplicate keys).
-/

abbrev Str := List Char

abbrev PyDict := List (Str × Str)

/-- Decimal rendering of a natural number, digit characters via
`Nat.digitChar`; fuel-based structural recursion (fuel `n + 1` always
suffices since `n / 10 < n` for `n ≥ 10`).  This is the model of Python's
`str(n)` for `n ≥ 0`, used by the source for synthetic volume names. -/
def natNameAux : Nat → Nat → Str
  | 0, _ => []
  | fuel + 1, n =>
      if n < 10 then [Nat.digitChar n]
      else natNameAux fuel (n / 10) ++ [Nat.digitChar (n % 10)]

/-- Model of Python `str(n)` for a non-negative integer `n`. -/
def natName (n : Nat) : Str := natNameAux (n + 1) n

/-- Decimal decoding, the left inverse of `natName`. -/
def decodeDec (s : Str) : Nat := s.foldl (fun a c => 10 * a + (c.toNat - 48)) 0

theorem natNameAux_fuel (f g n : Nat) (hf : n < f) (hg : n < g) :
    natNameAux f n = natNameAux g n := by
  induction f generalizing n g with
  | zero => omega
  | succ f ih =>
    match g, hg with
    | g' + 1, hg' =>
      simp only [natNameAux]
      by_cases h10 : n < 10
      · simp [h10]
      · simp only [h10, if_false]
        have hlt : n / 10 < n := Nat.div_lt_self (by omega) (by omega)
        rw [ih g' (n / 10) (by omega) (by omega)]

theorem digitChar_toNat (d : Nat) (h : d < 10) : (Nat.digitChar d).toNat = 48 + d := by
  interval_cases d <;> decide

theorem decodeDec_natName (n : Nat) : decodeDec (natName n) = n := by
  induction n using Nat.strong_induction_on with
  | _ n ih =>
    by_cases h10 : n < 10
    · simp only [natName, natNameAux, h10, if_true, decodeDec, List.foldl_cons,
        List.foldl_nil]
      rw [digitChar_toNat n h10]
      omega
    · have hlt : n / 10 < n := Nat.div_lt_self (by omega) (by omega)
      have hstep : natName n = natName (n / 10) ++ [Nat.digitChar (n % 10)] := by
        have h1 : natName n = natNameAux n (n / 10) ++ [Nat.digitChar (n % 10)] := by
          simp [natName, natNameAux, h10]
        rw [h1, natNameAux_fuel n (n / 10 + 1) (n / 10) (by omega) (by omega)]
        rfl
      rw [hstep]
      simp only [decodeDec, List.foldl_append, List.foldl_cons, List.foldl_nil]
      have := ih (n / 10) hlt
      simp only [decodeDec] at this
      rw [this, digitChar_toNat (n % 10) (Nat.mod_lt n (by omega))]
      omega

theorem natName_injective : Function.Injective natName := by
  intro m n h
  have := congrArg decodeDec h
  rwa [decodeDec_natName, decodeDec_natName] at this

/-- Python `d[k] = v`: overwrite in place if `k` is present, append otherwise. -/
def dictInsert : PyDict → Str → Str → PyDict
  | [], k, v => [(k, v)]
  | e :: rest, k, v =>
      if e.1 = k then (e.1, v) :: rest else e :: dictInsert rest k v

/-- Python `d.pop(k, None)`: drop the first entry with key `k` (dicts built
by assignment never hold a second one). -/
def dictPop : PyDict → Str → PyDict
  | [], _ => []
  | e :: rest, k => if e.1 = k then rest else e :: dictPop rest k

/-- Python `d.get(k)` / `d[k]`. -/
def dictGet? : PyDict → Str → Option Str
  | [], _ => none
  | e :: rest, k => if e.1 = k then some e.2 else dictGet? rest k

/-- Python `d.update(e)` (also models a `for k, v in e: d[k] = v` loop). -/
def dictUpdate (d : PyDict) (e : PyDict) : PyDict :=
  e.foldl (fun acc kv => dictInsert acc kv.1 kv.2) d

/-- Python `dict` built by assigning a list of pairs in order. -/
def dictFromPairs (l : List (Str × Str)) : PyDict := dictUpdate [] l

def dictKeys (d : PyDict) : List Str := d.map Prod.fst

/-- The value of the last entry of `l` carrying key `k`, if any
(later entries shadow earlier ones). -/
def lookupLast : List (Str × Str) → Str → Option Str
  | [], _ => none
  | kv :: rest, k =>
      match lookupLast rest k with
      | some v => some v
      | none => if kv.1 = k then some kv.2 else none

theorem dictGet?_insert (d : PyDict) (k v k' : Str) :
    dictGet? (dictInsert d k v) k' = if k' = k then some v else dictGet? d k' := by
  induction d with
  | nil =>
    by_cases h : k' = k <;> simp [dictInsert, dictGet?, h]
    · intro hk; exact absurd hk.symm h
  | cons e rest ih =>
    simp only [dictInsert]
    by_cases hek : e.1 = k
    · by_cases h : k' = k
      · simp [hek, dictGet?, h]
      · simp only [hek, if_true, dictGet?, h, if_false]
        have : ¬(k = k') := fun hh => h hh.symm
        simp [this]
    · simp only [hek, if_false, dictGet?]
      by_cases he : e.1 = k'
      · have : ¬(k' = k) := fun hh => hek (by rw [he, hh])
        simp [he, this]
      · simp [he, ih]

theorem dictKeys_insert (d : PyDict) (k v : Str) :
    dictKeys (dictInsert d k v) =
      if k ∈ dictKeys d then dictKeys d else dictKeys d ++ [k] := by
  induction d with
  | nil => simp [dictInsert, dictKeys]
  | cons e rest ih =>
    simp only [dictInsert, dictKeys]
    by_cases hek : e.1 = k
    · simp [hek, dictKeys, List.mem_cons]
    · have : ¬(k = e.1) := fun hh => hek hh.symm
      simp only [hek, if_false, List.map_cons, List.mem_cons, this, false_or]
      simp only [dictKeys] at ih
      by_cases hm : k ∈ rest.map Prod.fst <;> simp [hm, ih]

theorem dictKeys_nodup_insert (d : PyDict) (k v : Str)
    (h : (dictKeys d).Nodup) : (dictKeys (dictInsert d k v)).Nodup := by
  rw [dictKeys_insert]
  by_cases hm : k ∈ dictKeys d
  · simpa [hm]
  · simp only [hm, if_false]
    simpa [List.nodup_append] using ⟨h, hm⟩

theorem dictGet?_eq_none_iff (d : PyDict) (k : Str) :
    dictGet? d k = none ↔ k ∉ dictKeys d := by
  induction d with
  | nil => simp [dictGet?, dictKeys]
  | cons e rest ih =>
    simp only [dictGet?, dictKeys, List.map_cons, List.mem_cons]
    by_cases he : e.1 = k
    · simp [he]
    · have : ¬(k = e.1) := fun hh => he hh.symm
      simp [he, this, ih, dictKeys]

theorem dictGet?_pop (d : PyDict) (k k' : Str) (h : (dictKeys d).Nodup) :
    dictGet? (dictPop d k) k' = if k' = k then none else dictGet? d k' := by
  induction d with
  | nil => simp [dictPop, dictGet?]
  | cons e rest ih =>
    simp only [dictKeys, List.map_cons, List.nodup_cons] at h
    simp only [dictPop]
    by_cases hek : e.1 = k
    · simp only [hek, if_true]
      by_cases h' : k' = k
      · subst h'
        simp only [if_true]
        rw [(dictGet?_eq_none_iff rest k').mpr]
        rw [← hek]; exact h.1
      · simp only [h', if_false, dictGet?]
        have : ¬(e.1 = k') := fun hh => h' (by rw [← hh, hek])
        simp [this]
    · simp only [hek, if_false, dictGet?]
      by_cases he : e.1 = k'
      · have : ¬(k' = k) := fun hh => hek (by rw [he, hh])
        simp [he, this]
      · simp [he, ih h.2]

theorem dictKeys_pop (d : PyDict) (k : Str) :
    dictKeys (dictPop d k) = (dictKeys d).erase k := by
  induction d with
  | nil => simp [dictPop, dictKeys]
  | cons e rest ih =>
    simp only [dictPop, dictKeys]
    by_cases hek : e.1 = k
    · simp [hek, List.erase_cons, dictKeys]
    · have : ¬(e.1 == k) := by simpa using hek
      simp only [hek, if_false, List.map_cons, List.erase_cons, this, if_false]
      simpa [dictKeys] using ih

theorem dictKeys_nodup_pop (d : PyDict) (k : Str)
    (h : (dictKeys d).Nodup) : (dictKeys (dictPop d k)).Nodup := by
  rw [dictKeys_pop]; exact h.erase k

theorem lookupLast_cons (kv : Str × Str) (rest : List (Str × Str)) (k : Str) :
    lookupLast (kv :: rest) k =
      (lookupLast rest k).or (if kv.1 = k then some kv.2 else none) := by
  simp only [lookupLast]
  cases lookupLast rest k <;> simp

theorem dictGet?_update (d e : PyDict) (k : Str) :
    dictGet? (dictUpdate d e) k = (lookupLast e k).or (dictGet? d k) := by
  induction e generalizing d with
  | nil => simp [dictUpdate, lookupLast]
  | cons kv rest ih =>
    simp only [dictUpdate, List.foldl_cons]
    have : List.foldl (fun acc kv => dictInsert acc kv.1 kv.2)
        (dictInsert d kv.1 kv.2) rest = dictUpdate (dictInsert d kv.1 kv.2) rest := rfl
    rw [this, ih, lookupLast_cons, dictGet?_insert]
    by_cases h : kv.1 = k
    · rw [if_pos h.symm, if_pos h]
      cases lookupLast rest k <;> simp
    · rw [if_neg (fun hh => h hh.symm), if_neg h]
      cases lookupLast rest k <;> simp

theorem dictKeys_nodup_update (d e : PyDict) (h : (dictKeys d).Nodup) :
    (dictKeys (dictUpdate d e)).Nodup := by
  induction e generalizing d with
  | nil => simpa [dictUpdate]
  | cons kv rest ih =>
    simp only [dictUpdate, List.foldl_cons]
    exact ih (dictInsert d kv.1 kv.2) (dictKeys_nodup_insert d kv.1 kv.2 h)

theorem dictInsert_append (d : PyDict) (k v : Str) (h : k ∉ dictKeys d) :
    dictInsert d k v = d ++ [(k, v)] := by
  induction d with
  | nil => simp [dictInsert]
  | cons e rest ih =>
    simp only [dictKeys, List.map_cons, List.mem_cons] at h
    push_neg at h
    have : ¬(e.1 = k) := fun hh => h.1 hh.symm
    simp only [dictInsert, this, if_false, List.cons_append, List.cons.injEq, true_and]
    exact ih (by simpa [dictKeys] using h.2)

theorem dictUpdate_append (acc d : PyDict)
    (h : (dictKeys (acc ++ d)).Nodup) : dictUpdate acc d = acc ++ d := by
  induction d generalizing acc with
  | nil => simp [dictUpdate]
  | cons kv rest ih =>
    simp only [dictUpdate, List.foldl_cons]
    have hk : kv.1 ∉ dictKeys acc := by
      intro hm
      have hnd := h
      simp only [dictKeys, List.map_append, List.nodup_append] at hnd
      exact hnd.2.2 (by simpa [dictKeys] using hm)
        (by simp)
    rw [dictInsert_append acc kv.1 kv.2 hk]
    have hre : (acc ++ [(kv.1, kv.2)]) ++ rest = acc ++ kv :: rest := by simp
    have hnd2 : (dictKeys ((acc ++ [(kv.1, kv.2)]) ++ rest)).Nodup := by
      rw [hre]; exact h
    have := ih (acc ++ [(kv.1, kv.2)]) hnd2
    simp only [dictUpdate] at this
    rw [this, hre]

theorem dictFromPairs_self (d : PyDict) (h : (dictKeys d).Nodup) :
    dictFromPairs d = d := by
  have := dictUpdate_append [] d (by simpa using h)
  simpa [dictFromPairs] using this

/-! ## Data model

Shapes of the structured documents handled by the engine
(`containers_utils.py`).  The update path reads `volumeMounts` and
`volumes` through `.get(..., [])` and may leave `env` absent, so those
three are `Option`s: `none` models an absent key, `some []` an empty
sequence. -/

inductive CmdError where
  | invalidArgument (param : Str) (msg : Str)
  | badFile (filename : Str) (lineIdx : Nat) (line : Str)
  | keyError (key : Str)
  | noCosImage
deriving DecidableEq

/-- `MountVolumeMode` enum of the source. -/
inductive MountVolumeMode where
  | READ_ONLY
  | READ_WRITE
deriving DecidableEq

def MountVolumeMode.isReadOnly : MountVolumeMode → Bool
  | .READ_ONLY => true
  | .READ_WRITE => false

/-- A `--container-mount-host-path` directive `{host-path, mount-path, mode?}`. -/
structure HostPathDirective where
  hostPath : Str
  mountPath : Str
  mode : Option MountVolumeMode
deriving DecidableEq

/-- A `--container-mount-tmpfs` directive `{mount-path}`. -/
structure TmpfsDirective where
  mountPath : Str
deriving DecidableEq

/-- A `volumeMounts` entry; tmpfs mounts carry no `readOnly` key. -/
structure Mount where
  name : Str
  mountPath : Str
  readOnly : Option Bool
deriving DecidableEq

inductive VolumeSource where
  | hostPath (path : Str)
  | emptyDirMemory
deriving DecidableEq

structure Volume where
  name : Str
  src : VolumeSource
deriving DecidableEq

structure Container where
  name : Str
  image : Str
  command : Option (List Str)
  args : Option (List Str)
  stdin : Bool
  tty : Bool
  privileged : Bool
  env : Option (List (Str × Str))
  volumeMounts : Option (List Mount)
deriving DecidableEq

/-- The `spec` document: singleton container list, volumes, restart policy. -/
structure Manifest where
  container : Container
  volumes : Option (List Volume)
  restartPolicy : Str
deriving DecidableEq

/-- `RESTART_POLICY_API` lookup table. -/
def restartPolicyAPI (tok : Str) : Option Str :=
  if tok = "never".data then some "Never".data
  else if tok = "on-failure".data then some "OnFailure".data
  else if tok = "always".data then some "Always".data
  else none

/-! ## Environment-Assignment Reader (`_ReadDictionary`) -/

/-- Python `line.find(c)`: index of the first occurrence, `none` for the
source's `-1` when absent. -/
def pyFind (c : Char) : Str → Option Nat
  | [] => none
  | a :: rest => if a = c then some 0 else (pyFind c rest).map (· + 1)

/-- The loop body of `_ReadDictionary`: `i` is the 0-based `enumerate`
index, `d` the dictionary built so far.  A line of length ≤ 1 or starting
with `#` is skipped; otherwise the first `=` splits key from value and one
trailing newline is stripped from the value; a line without `=` raises the
syntax error carrying file name, index and line. -/
def readLinesAux (filename : Str) : Nat → PyDict → List Str → Except CmdError PyDict
  | _, d, [] => .ok d
  | i, d, line :: rest =>
      if line.length ≤ 1 then readLinesAux filename (i + 1) d rest
      else if line.head? = some '#' then readLinesAux filename (i + 1) d rest
      else
        match pyFind '=' line with
        | none => .error (.badFile filename i line)
        | some loc =>
            let key := line.take loc
            let v := line.drop (loc + 1)
            let v := if v.getLast? = some '\n' then v.dropLast else v
            readLinesAux filename (i + 1) (dictInsert d key v) rest

def readLines (filename : Str) (lines : List Str) : Except CmdError PyDict :=
  readLinesAux filename 0 [] lines

/-- `_ReadDictionary`: a missing file path yields an empty mapping.  The
file system is supplied as the file's list of lines (Python file iteration:
each line keeps its terminating newline; a final line may lack one). -/
def readDictionary : Option (Str × List Str) → Except CmdError PyDict
  | none => .ok []
  | some (f, ls) => readLines f ls

/-- Python file iteration: split after each newline, keeping it; no empty
trailing piece. -/
def pyLinesAux : Str → Str → List Str
  | acc, [] => if acc = [] then [] else [acc.reverse]
  | acc, c :: rest =>
      if c = '\n' then (acc.reverse ++ ['\n']) :: pyLinesAux [] rest
      else pyLinesAux (c :: acc) rest

def pyLines (s : Str) : List Str := pyLinesAux [] s

/-! ## Port-Mapping Parser (`_ValidateAndParsePortMapping`) -/

structure PortCfg where
  containerPort : Nat
  hostPort : Nat
  protocol : Str
deriving DecidableEq

/-- Python `\s` on ASCII input. -/
def isPySpace (c : Char) : Bool :=
  c = ' ' || c = '\t' || c = '\n' || c = '\r' || c = '\x0b' || c = '\x0c'

/-- One `(\d+):` step of the pattern: the (greedy, hence maximal) leading
digit run, which must be non-empty and followed by `:`; returns the run
and the remainder after the colon. -/
def splitNum (s : Str) : Option (Str × Str) :=
  let ds := s.takeWhile Char.isDigit
  let r := s.drop ds.length
  if ds = [] then none
  else if r.head? = some ':' then some (ds, r.tail) else none

/-- `re.match(r'^(\d+):(\d+):(\S+)$', s)`, returning the three groups.
`$` follows Python semantics: it matches at the end of the string or just
before one final newline, so `"1:2:TCP\n"` matches.  (`\d`/`\S` are taken
as their ASCII classes.) -/
def matchPortMapping (s : Str) : Option (Str × Str × Str) :=
  match splitNum s with
  | none => none
  | some (ds1, r2) =>
      match splitNum r2 with
      | none => none
      | some (ds2, r4) =>
          let p := r4.takeWhile (fun c => !isPySpace c)
          let r5 := r4.drop p.length
          if p = [] then none
          else if r5 = [] ∨ r5 = ['\n'] then some (ds1, ds2, p) else none

def allowedProtocols : List Str := ["TCP".data, "UDP".data]

/-- Message of the malformed-mapping error (a constant: it does not
mention the offending entry). -/
def portFormatMsg : Str :=
  "Port mappings should follow PORT:TARGET_PORT:PROTOCOL format.".data

/-- Message of the bad-protocol error (also constant). -/
def portProtocolMsg : Str := "Protocol should be one of [TCP, UDP]".data

def portMappingsFlag : Str := "--port-mappings".data

/-- `_ValidateAndParsePortMapping`: the first failing entry aborts with an
`InvalidArgumentException`; valid entries are mapped in input order to
`{containerPort: int(target), hostPort: int(port), protocol}`. -/
def validateAndParsePortMapping : List Str → Except CmdError (List PortCfg)
  | [] => .ok []
  | pm :: rest =>
      match matchPortMapping pm with
      | none => .error (.invalidArgument portMappingsFlag portFormatMsg)
      | some (port, target, protocol) =>
          if protocol ∈ allowedProtocols then
            (validateAndParsePortMapping rest).map
              (fun r => ⟨decodeDec target, decodeDec port, protocol⟩ :: r)
          else .error (.invalidArgument portMappingsFlag portProtocolMsg)

/-! ## Manifest Builder (`_CreateContainerManifest`) -/

/-- Creation-path host-path loop: volume `n` gets `hostPath`, the mount
gets `readOnly` from the directive's mode (default read-write). -/
def buildHostMounts : Nat → List HostPathDirective → List Volume × List Mount
  | _, [] => ([], [])
  | n, d :: rest =>
      let pr := buildHostMounts (n + 1) rest
      (⟨natName n, .hostPath d.hostPath⟩ :: pr.1,
       ⟨natName n, d.mountPath, some ((d.mode.getD .READ_WRITE).isReadOnly)⟩ :: pr.2)

/-- Creation-path tmpfs loop: memory-backed `emptyDir` volumes. -/
def buildTmpfsMounts : Nat → List TmpfsDirective → List Volume × List Mount
  | _, [] => ([], [])
  | n, t :: rest =>
      let pr := buildTmpfsMounts (n + 1) rest
      (⟨natName n, .emptyDirMemory⟩ :: pr.1, ⟨natName n, t.mountPath, none⟩ :: pr.2)

structure CreateArgs where
  container_image : Str
  container_command : Option Str
  container_arg : Option (List Str)
  container_stdin : Bool
  container_tty : Bool
  container_privileged : Bool
  container_env_file : Option (Str × List Str)
  container_env : List PyDict
  container_mount_host_path : List HostPathDirective
  container_mount_tmpfs : List TmpfsDirective
  container_restart_policy : Str
deriving DecidableEq

/-- `_CreateContainerManifest`: env-file values first, explicit env
directives override; `env` omitted when the mapping is empty;
`volumeMounts` and `volumes` always present (possibly empty); restart
policy translated through `RESTART_POLICY_API` (unknown token = `KeyError`). -/
def createContainerManifest (args : CreateArgs) (instanceName : Str) :
    Except CmdError Manifest := do
  let envVars ← readDictionary args.container_env_file
  let envVars := args.container_env.foldl dictUpdate envVars
  let hostPr := buildHostMounts 0 args.container_mount_host_path
  let tmpfsPr :=
    buildTmpfsMounts args.container_mount_host_path.length args.container_mount_tmpfs
  match restartPolicyAPI args.container_restart_policy with
  | none => .error (.keyError args.container_restart_policy)
  | some rp =>
      .ok {
        container := {
          name := instanceName
          image := args.container_image
          command := args.container_command.map (fun c => [c])
          args := args.container_arg
          stdin := args.container_stdin
          tty := args.container_tty
          privileged := args.container_privileged
          env := if envVars = [] then none else some envVars
          volumeMounts := some (hostPr.2 ++ tmpfsPr.2) }
        volumes := some (hostPr.1 ++ tmpfsPr.1)
        restartPolicy := rp }

/-! ## Manifest Updater (`_CleanupMounts`, `_UpdateMounts`, `_UpdateEnv`,
`UpdateMetadata`) -/

/-- The single pass of `_CleanupMounts` over existing mounts, producing
`(used_mounts, used_mounts_names, removed_mount_names)`. -/
def splitMounts (toRemove : List Str) : List Mount → List Mount × List Str × List Str
  | [] => ([], [], [])
  | m :: rest =>
      let pr := splitMounts toRemove rest
      if m.mountPath ∈ toRemove then (pr.1, pr.2.1, m.name :: pr.2.2)
      else (m :: pr.1, m.name :: pr.2.1, pr.2.2)

/-- The volume garbage-collection pass of `_CleanupMounts`. -/
def filterVolumes (usedNames removedNames : List Str) : List Volume → List Volume
  | [] => []
  | v :: rest =>
      if v.name ∈ usedNames ∨ v.name ∉ removedNames then
        v :: filterVolumes usedNames removedNames rest
      else filterVolumes usedNames removedNames rest

/-- `_CleanupMounts`. -/
def cleanupMounts (m : Manifest) (removeMounts : List Str)
    (hosts : List HostPathDirective) (tmpfss : List TmpfsDirective) : Manifest :=
  let toRemove :=
    removeMounts ++ hosts.map HostPathDirective.mountPath ++ tmpfss.map TmpfsDirective.mountPath
  let pr := splitMounts toRemove (m.container.volumeMounts.getD [])
  let usedVolumes := filterVolumes pr.2.1 pr.2.2 (m.volumes.getD [])
  { m with
    container := { m.container with volumeMounts := some pr.1 }
    volumes := some usedVolumes }

/-- The `while str(next_volume_name) in used_names` scan of
`_UpdateMounts`, with explicit fuel; fuel `used.length + 1` always
suffices (`firstFree_not_mem` below). -/
def firstFree (used : List Str) : Nat → Nat → Nat
  | next, 0 => next
  | next, fuel + 1 =>
      if natName next ∈ used then firstFree used (next + 1) fuel else next

/-- Update-path host-path loop: each new volume name skips names already
on the manifest; returns the final counter as well. -/
def addHostMounts (used : List Str) : Nat → List HostPathDirective →
    List Volume × List Mount × Nat
  | next, [] => ([], [], next)
  | next, d :: rest =>
      let n := firstFree used next (used.length + 1)
      let pr := addHostMounts used (n + 1) rest
      (⟨natName n, .hostPath d.hostPath⟩ :: pr.1,
       ⟨natName n, d.mountPath, some ((d.mode.getD .READ_WRITE).isReadOnly)⟩ :: pr.2.1,
       pr.2.2)

/-- Update-path tmpfs loop, continuing the same counter. -/
def addTmpfsMounts (used : List Str) : Nat → List TmpfsDirective →
    List Volume × List Mount × Nat
  | next, [] => ([], [], next)
  | next, t :: rest =>
      let n := firstFree used next (used.length + 1)
      let pr := addTmpfsMounts used (n + 1) rest
      (⟨natName n, .emptyDirMemory⟩ :: pr.1, ⟨natName n, t.mountPath, none⟩ :: pr.2.1,
       pr.2.2)

/-- `_UpdateMounts`. -/
def updateMounts (m : Manifest) (removeMounts : List Str)
    (hosts : List HostPathDirective) (tmpfss : List TmpfsDirective) : Manifest :=
  let m1 := cleanupMounts m removeMounts hosts tmpfss
  let used := (m1.volumes.getD []).map Volume.name
  let hostPr := addHostMounts used 0 hosts
  let tmpfsPr := addTmpfsMounts used hostPr.2.2 tmpfss
  { m1 with
    container := { m1.container with
      volumeMounts :=
        some ((m1.container.volumeMounts.getD []) ++ hostPr.2.1 ++ tmpfsPr.2.1) }
    volumes := some ((m1.volumes.getD []) ++ hostPr.1 ++ tmpfsPr.1) }

/-- `_UpdateEnv`: current mapping from the manifest's env list, remove
keys, merge env file, merge explicit directives; the manifest is only
touched when the final mapping is non-empty. -/
def updateEnv (m : Manifest) (removeKeys : List Str)
    (envFile : Option (Str × List Str)) (explicit : List PyDict) :
    Except CmdError Manifest := do
  let current := dictFromPairs (m.container.env.getD [])
  let current := removeKeys.foldl dictPop current
  let fileDict ← readDictionary envFile
  let current := dictUpdate current fileDict
  let current := explicit.foldl dictUpdate current
  if current = [] then .ok m
  else .ok { m with container := { m.container with env := some current } }

/-- The update directive set: `none` / `[]` / `false` model an
unspecified flag (`args.IsSpecified(...)` false, `... or []` empty). -/
structure UpdateArgs where
  container_image : Option Str
  container_command : Option Str
  clear_container_command : Bool
  container_arg : Option (List Str)
  clear_container_args : Bool
  container_privileged : Option Bool
  remove_container_mounts : List Str
  container_mount_host_path : List HostPathDirective
  container_mount_tmpfs : List TmpfsDirective
  remove_container_env : List (List Str)
  container_env_file : Option (Str × List Str)
  container_env : List PyDict
  container_stdin : Option Bool
  container_tty : Option Bool
  container_restart_policy : Option Str
deriving DecidableEq

/-- The scalar overrides of `UpdateMetadata` preceding the mount step:
image, command, clear-command, args, clear-args, privileged, in source
order. -/
def applyScalars1 (m : Manifest) (args : UpdateArgs) : Manifest :=
  let m := match args.container_image with
    | some img => { m with container := { m.container with image := img } }
    | none => m
  let m := match args.container_command with
    | some c => { m with container := { m.container with command := some [c] } }
    | none => m
  let m := if args.clear_container_command then
    { m with container := { m.container with command := none } } else m
  let m := match args.container_arg with
    | some a => { m with container := { m.container with args := some a } }
    | none => m
  let m := if args.clear_container_args then
    { m with container := { m.container with args := none } } else m
  match args.container_privileged with
  | some b => { m with container := { m.container with privileged := b } }
  | none => m

/-- The stdin/tty overrides of `UpdateMetadata` following the env step. -/
def applyScalars2 (m : Manifest) (args : UpdateArgs) : Manifest :=
  let m := match args.container_stdin with
    | some b => { m with container := { m.container with stdin := b } }
    | none => m
  match args.container_tty with
  | some b => { m with container := { m.container with tty := b } }
  | none => m

/-- The final restart-policy step of `UpdateMetadata`. -/
def applyRestartPolicy (m : Manifest) (args : UpdateArgs) : Except CmdError Manifest :=
  match args.container_restart_policy with
  | none => .ok m
  | some tok =>
      match restartPolicyAPI tok with
      | none => .error (.keyError tok)
      | some rp => .ok { m with restartPolicy := rp }

/-- `UpdateMetadata`, in source order: scalar overrides, mount
reconciliation, env reconciliation, stdin/tty, restart policy. -/
def updateMetadata (m : Manifest) (args : UpdateArgs) : Except CmdError Manifest := do
  let m := applyScalars1 m args
  let m := updateMounts m args.remove_container_mounts args.container_mount_host_path
    args.container_mount_tmpfs
  let m ← updateEnv m args.remove_container_env.flatten args.container_env_file
    args.container_env
  applyRestartPolicy (applyScalars2 m args) args

/-! ## Image Selector (`ExpandKonletCosImageFlag`) -/

/-- Modelled from the spec: the catalog's image descriptor
`{name, creationTimestamp, selfLink}`.  The datetime parser
(`times.ParseDateTime`) is an external collaborator not present in the
sources, so `creationTimestamp` stands for the already-parsed instant,
represented as a natural number of which only the order is used. -/
structure CosImage where
  name : Str
  creationTimestamp : Nat
  selfLink : Str
deriving DecidableEq

/-- `re.match(r'cos-<family>-(\d+)-.*', name)`, returning the integer
version.  `re.match` anchors only at the start and `.*` may be empty, so
the requirement is: the name starts with `cos-<family>-`, followed by a
non-empty digit run whose first non-digit successor character is `-`. -/
def parseFamilyVersion (family : Str) (name : Str) : Option Nat :=
  let pre := ("cos-".data ++ family ++ "-".data)
  if pre.isPrefixOf name then
    let rest := name.drop pre.length
    let ds := rest.takeWhile Char.isDigit
    if ds ≠ [] ∧ (rest.drop ds.length).head? = some '-' then some (decodeDec ds)
    else none
  else none

/-- The `(version, timestamp)` comparison key of `CreateComparisonKey`,
as a boolean total preorder for sorting. -/
def imageKeyLE (a b : Nat × CosImage) : Bool :=
  decide (a.1 < b.1 ∨ (a.1 = b.1 ∧ a.2.creationTimestamp ≤ b.2.creationTimestamp))

/-- The images of the catalog matching a family's name pattern, paired
with their parsed versions. -/
def familyMatches (family : Str) (images : List CosImage) : List (Nat × CosImage) :=
  images.filterMap (fun im => (parseFamilyVersion family im.name).map (fun v => (v, im)))

/-- One iteration of the family loop: filter the catalog by the family
pattern, sort ascending by `(version, timestamp)` (Python `sorted` is a
stable merge sort), and accept the last image iff its version is ≥ 62. -/
def selectForFamily (family : Str) (images : List CosImage) : Option Str :=
  match ((familyMatches family images).mergeSort imageKeyLE).getLast? with
  | none => none
  | some (v, im) => if v ≥ 62 then some im.selfLink else none

def konletFamilies : List Str := ["stable".data, "beta".data, "dev".data]

/-- `ExpandKonletCosImageFlag` on an already-fetched catalog: first
family (stable, beta, dev) that yields an image of version ≥ 62 wins. -/
def expandKonletCosImage (images : List CosImage) : Except CmdError Str :=
  match konletFamilies.findSome? (fun fam => selectForFamily fam images) with
  | some l => .ok l
  | none => .error .noCosImage

/-! ## Mount reconciliation: characterization lemmas -/

theorem splitMounts_eq (toRemove : List Str) (mounts : List Mount) :
    splitMounts toRemove mounts =
      (mounts.filter (fun mnt => decide (mnt.mountPath ∉ toRemove)),
       (mounts.filter (fun mnt => decide (mnt.mountPath ∉ toRemove))).map Mount.name,
       (mounts.filter (fun mnt => decide (mnt.mountPath ∈ toRemove))).map Mount.name) := by
  induction mounts with
  | nil => simp [splitMounts]
  | cons mnt rest ih =>
    simp only [splitMounts, ih, List.filter_cons]
    by_cases h : mnt.mountPath ∈ toRemove
    · simp [h]
    · simp [h]

theorem filterVolumes_eq (usedNames removedNames : List Str) (vols : List Volume) :
    filterVolumes usedNames removedNames vols =
      vols.filter (fun v => decide (v.name ∈ usedNames ∨ v.name ∉ removedNames)) := by
  induction vols with
  | nil => simp [filterVolumes]
  | cons v rest ih =>
    simp only [filterVolumes, ih, List.filter_cons]
    by_cases h : v.name ∈ usedNames ∨ v.name ∉ removedNames
    · simp [h]
    · simp [h]

/-- The set of mount paths to remove, as the claim words it: the union of
the explicitly-removed paths, the mount paths of the new host-path
directives, and the mount paths of the new tmpfs directives. -/
abbrev removalSet (removeMounts : List Str) (hosts : List HostPathDirective)
    (tmpfss : List TmpfsDirective) (path : Str) : Prop :=
  path ∈ removeMounts ∨ path ∈ hosts.map HostPathDirective.mountPath ∨
    path ∈ tmpfss.map TmpfsDirective.mountPath

/-- The pre-existing mounts kept by the update (path outside the removal set). -/
def keptMounts (m : Manifest) (removeMounts : List Str)
    (hosts : List HostPathDirective) (tmpfss : List TmpfsDirective) : List Mount :=
  (m.container.volumeMounts.getD []).filter
    (fun mnt => decide (¬ removalSet removeMounts hosts tmpfss mnt.mountPath))

/-- The pre-existing mounts removed by the update. -/
def removedMounts (m : Manifest) (removeMounts : List Str)
    (hosts : List HostPathDirective) (tmpfss : List TmpfsDirective) : List Mount :=
  (m.container.volumeMounts.getD []).filter
    (fun mnt => decide (removalSet removeMounts hosts tmpfss mnt.mountPath))

theorem cleanupMounts_mounts (m : Manifest) (removeMounts : List Str)
    (hosts : List HostPathDirective) (tmpfss : List TmpfsDirective) :
    (cleanupMounts m removeMounts hosts tmpfss).container.volumeMounts =
      some (keptMounts m removeMounts hosts tmpfss) := by
  simp only [cleanupMounts, splitMounts_eq, keptMounts]
  congr 1
  apply List.filter_congr
  intro mnt _
  simp [removalSet, List.mem_append, or_assoc]

theorem cleanupMounts_volumes (m : Manifest) (removeMounts : List Str)
    (hosts : List HostPathDirective) (tmpfss : List TmpfsDirective) :
    (cleanupMounts m removeMounts hosts tmpfss).volumes =
      some ((m.volumes.getD []).filter (fun v => decide
        (v.name ∈ (keptMounts m removeMounts hosts tmpfss).map Mount.name ∨
         v.name ∉ (removedMounts m removeMounts hosts tmpfss).map Mount.name))) := by
  simp only [cleanupMounts, splitMounts_eq, filterVolumes_eq, keptMounts, removedMounts]
  congr 1
  · apply List.filter_congr
    intro v _
    have h1 : ((m.container.volumeMounts.getD []).filter
        (fun mnt => decide (mnt.mountPath ∉ (removeMounts ++
          hosts.map HostPathDirective.mountPath ++ tmpfss.map TmpfsDirective.mountPath)))) =
        ((m.container.volumeMounts.getD []).filter
        (fun mnt => decide (¬ removalSet removeMounts hosts tmpfss mnt.mountPath))) := by
      apply List.filter_congr
      intro mnt _
      simp [removalSet, List.mem_append, or_assoc]
    have h2 : ((m.container.volumeMounts.getD []).filter
        (fun mnt => decide (mnt.mountPath ∈ (removeMounts ++
          hosts.map HostPathDirective.mountPath ++ tmpfss.map TmpfsDirective.mountPath)))) =
        ((m.container.volumeMounts.getD []).filter
        (fun mnt => decide (removalSet removeMounts hosts tmpfss mnt.mountPath))) := by
      apply List.filter_congr
      intro mnt _
      simp [removalSet, List.mem_append, or_assoc]
    rw [h1, h2]

/-! ## Allocation of synthetic volume names -/

theorem firstFree_spec (used : List Str) :
    ∀ fuel next, (∃ k, k ≤ fuel ∧ natName (next + k) ∉ used) →
      natName (firstFree used next fuel) ∉ used ∧
      next ≤ firstFree used next fuel ∧
      ∀ j, next ≤ j → j < firstFree used next fuel → natName j ∈ used := by
  intro fuel
  induction fuel with
  | zero =>
    intro next ⟨k, hk, hfree⟩
    have hk0 : k = 0 := Nat.le_zero.mp hk
    subst hk0
    simp only [firstFree]
    exact ⟨by simpa using hfree, Nat.le_refl _, fun j h1 h2 => absurd h2 (by omega)⟩
  | succ fuel ih =>
    intro next ⟨k, hk, hfree⟩
    simp only [firstFree]
    by_cases hmem : natName next ∈ used
    · rw [if_pos hmem]
      have hk0 : k ≠ 0 := by
        rintro rfl
        exact hfree (by simpa using hmem)
      have hfree' : natName (next + 1 + (k - 1)) ∉ used := by
        have : next + 1 + (k - 1) = next + k := by omega
        rw [this]; exact hfree
      obtain ⟨h1, h2, h3⟩ := ih (next + 1) ⟨k - 1, by omega, hfree'⟩
      refine ⟨h1, by omega, fun j hj1 hj2 => ?_⟩
      by_cases hj : j = next
      · exact hj ▸ hmem
      · exact h3 j (by omega) hj2
    · rw [if_neg hmem]
      exact ⟨hmem, Nat.le_refl _, fun j h1 h2 => absurd h2 (by omega)⟩

theorem exists_fresh (used : List Str) (next : Nat) :
    ∃ k, k ≤ used.length ∧ natName (next + k) ∉ used := by
  by_contra hcon
  push_neg at hcon
  have hsub : (List.range (used.length + 1)).map (fun k => natName (next + k)) ⊆ used := by
    intro s hs
    simp only [List.mem_map, List.mem_range] at hs
    obtain ⟨k, hk, rfl⟩ := hs
    exact hcon k (by omega)
  have hinj : Function.Injective (fun k => natName (next + k)) := by
    intro a b hab
    have := natName_injective hab
    omega
  have hnodup : ((List.range (used.length + 1)).map (fun k => natName (next + k))).Nodup :=
    (List.nodup_range (used.length + 1)).map hinj
  have := (hnodup.subperm hsub).length_le
  simp at this

theorem firstFree_alloc (used : List Str) (next : Nat) :
    natName (firstFree used next (used.length + 1)) ∉ used ∧
    next ≤ firstFree used next (used.length + 1) ∧
    ∀ j, next ≤ j → j < firstFree used next (used.length + 1) → natName j ∈ used := by
  obtain ⟨k, hk, hfree⟩ := exists_fresh used next
  exact firstFree_spec used (used.length + 1) next ⟨k, by omega, hfree⟩

/-- The sequence of numeric names picked by the update-path allocation
loop: `c` allocations starting from counter `next`, skipping names in
`used`. -/
def allocSeq (used : List Str) : Nat → Nat → List Nat
  | _, 0 => []
  | next, c + 1 =>
      let n := firstFree used next (used.length + 1)
      n :: allocSeq used (n + 1) c

/-- The counter value after `c` allocations. -/
def allocFinal (used : List Str) : Nat → Nat → Nat
  | next, 0 => next
  | next, c + 1 => allocFinal used (firstFree used next (used.length + 1) + 1) c

theorem allocSeq_length (used : List Str) (c : Nat) :
    ∀ next, (allocSeq used next c).length = c := by
  induction c with
  | zero => intro next; simp [allocSeq]
  | succ c ih => intro next; simp [allocSeq, ih]

theorem allocSeq_split (used : List Str) (c₁ : Nat) :
    ∀ next c₂, allocSeq used next (c₁ + c₂) =
      allocSeq used next c₁ ++ allocSeq used (allocFinal used next c₁) c₂ := by
  induction c₁ with
  | zero => intro next c₂; simp [allocSeq, allocFinal]
  | succ c₁ ih =>
    intro next c₂
    have h : c₁ + 1 + c₂ = (c₁ + c₂) + 1 := by omega
    rw [h]
    simp only [allocSeq, allocFinal, List.cons_append]
    rw [ih]

theorem allocSeq_free (used : List Str) (c : Nat) :
    ∀ next, ∀ x ∈ allocSeq used next c, natName x ∉ used := by
  induction c with
  | zero => intro next x hx; simp [allocSeq] at hx
  | succ c ih =>
    intro next x hx
    simp only [allocSeq, List.mem_cons] at hx
    rcases hx with rfl | hx
    · exact (firstFree_alloc used next).1
    · exact ih _ x hx

theorem allocSeq_ge (used : List Str) (c : Nat) :
    ∀ next, ∀ x ∈ allocSeq used next c, next ≤ x := by
  induction c with
  | zero => intro next x hx; simp [allocSeq] at hx
  | succ c ih =>
    intro next x hx
    simp only [allocSeq, List.mem_cons] at hx
    have hge := (firstFree_alloc used next).2.1
    rcases hx with rfl | hx
    · exact hge
    · have := ih _ x hx
      omega

theorem allocSeq_pairwise (used : List Str) (c : Nat) :
    ∀ next, List.Pairwise (· < ·) (allocSeq used next c) := by
  induction c with
  | zero => intro next; simp [allocSeq]
  | succ c ih =>
    intro next
    simp only [allocSeq, List.pairwise_cons]
    refine ⟨fun y hy => ?_, ih _⟩
    have := allocSeq_ge used c _ y hy
    omega

theorem allocSeq_names_nodup (used : List Str) (c next : Nat) :
    ((allocSeq used next c).map natName).Nodup := by
  have hnd : (allocSeq used next c).Nodup :=
    (allocSeq_pairwise used c next).imp Nat.ne_of_lt
  exact hnd.map natName_injective

theorem allocSeq_least (used : List Str) (c : Nat) :
    ∀ next (prior : List Nat),
      (∀ j < next, natName j ∈ used ∨ j ∈ prior) →
      (∀ p ∈ prior, p < next) →
      ∀ i (h : i < (allocSeq used next c).length),
        natName ((allocSeq used next c).get ⟨i, h⟩) ∉ used ∧
        (allocSeq used next c).get ⟨i, h⟩ ∉ prior ++ (allocSeq used next c).take i ∧
        ∀ j < (allocSeq used next c).get ⟨i, h⟩,
          natName j ∈ used ∨ j ∈ prior ++ (allocSeq used next c).take i := by
  induction c with
  | zero =>
    intro next prior _ _ i h
    simp [allocSeq] at h
  | succ c ih =>
    intro next prior hinv hbound i h
    obtain ⟨hfree, hge, hleast⟩ := firstFree_alloc used next
    match i with
    | 0 =>
      simp only [allocSeq, List.get, List.take_zero, List.append_nil]
      refine ⟨hfree, fun hmem => ?_, fun j hj => ?_⟩
      · have := hbound _ hmem
        omega
      · by_cases hj' : j < next
        · rcases hinv j hj' with h1 | h1
          · exact Or.inl h1
          · exact Or.inr h1
        · exact Or.inl (hleast j (by omega) hj)
    | i + 1 =>
      simp only [allocSeq, List.length_cons] at h ⊢
      have hinv' : ∀ j < firstFree used next (used.length + 1) + 1,
          natName j ∈ used ∨ j ∈ prior ++ [firstFree used next (used.length + 1)] := by
        intro j hj
        by_cases hj1 : j = firstFree used next (used.length + 1)
        · exact Or.inr (by simp [hj1])
        · by_cases hj2 : j < next
          · rcases hinv j hj2 with h1 | h1
            · exact Or.inl h1
            · exact Or.inr (by simp [h1])
          · exact Or.inl (hleast j (by omega) (by omega))
      have hbound' : ∀ p ∈ prior ++ [firstFree used next (used.length + 1)],
          p < firstFree used next (used.length + 1) + 1 := by
        intro p hp
        simp only [List.mem_append, List.mem_singleton] at hp
        rcases hp with hp | rfl
        · have := hbound p hp
          omega
        · omega
      have := ih (firstFree used next (used.length + 1) + 1)
        (prior ++ [firstFree used next (used.length + 1)]) hinv' hbound' i (by omega)
      simpa [List.get, List.take_succ_cons, List.append_assoc] using this

theorem addHostMounts_eq (used : List Str) (ds : List HostPathDirective) :
    ∀ next, addHostMounts used next ds =
      (List.zipWith (fun n d => (⟨natName n, .hostPath d.hostPath⟩ : Volume))
         (allocSeq used next ds.length) ds,
       List.zipWith (fun n d => (⟨natName n, d.mountPath,
         some ((d.mode.getD .READ_WRITE).isReadOnly)⟩ : Mount))
         (allocSeq used next ds.length) ds,
       allocFinal used next ds.length) := by
  induction ds with
  | nil => intro next; simp [addHostMounts, allocSeq, allocFinal]
  | cons d rest ih =>
    intro next
    simp only [addHostMounts, ih, List.length_cons, allocSeq, allocFinal, List.zipWith]

theorem addTmpfsMounts_eq (used : List Str) (ds : List TmpfsDirective) :
    ∀ next, addTmpfsMounts used next ds =
      (List.zipWith (fun n _ => (⟨natName n, .emptyDirMemory⟩ : Volume))
         (allocSeq used next ds.length) ds,
       List.zipWith (fun n t => (⟨natName n, t.mountPath, none⟩ : Mount))
         (allocSeq used next ds.length) ds,
       allocFinal used next ds.length) := by
  induction ds with
  | nil => intro next; simp [addTmpfsMounts, allocSeq, allocFinal]
  | cons d rest ih =>
    intro next
    simp only [addTmpfsMounts, ih, List.length_cons, allocSeq, allocFinal, List.zipWith]

theorem buildHostMounts_eq (ds : List HostPathDirective) :
    ∀ n, buildHostMounts n ds =
      (List.zipWith (fun k d => (⟨natName k, .hostPath d.hostPath⟩ : Volume))
         (List.range' n ds.length) ds,
       List.zipWith (fun k d => (⟨natName k, d.mountPath,
         some ((d.mode.getD .READ_WRITE).isReadOnly)⟩ : Mount))
         (List.range' n ds.length) ds) := by
  induction ds with
  | nil => intro n; simp [buildHostMounts]
  | cons d rest ih =>
    intro n
    simp only [buildHostMounts, ih, List.length_cons, List.range'_succ, List.zipWith]

theorem buildTmpfsMounts_eq (ds : List TmpfsDirective) :
    ∀ n, buildTmpfsMounts n ds =
      (List.zipWith (fun k _ => (⟨natName k, .emptyDirMemory⟩ : Volume))
         (List.range' n ds.length) ds,
       List.zipWith (fun k t => (⟨natName k, t.mountPath, none⟩ : Mount))
         (List.range' n ds.length) ds) := by
  induction ds with
  | nil => intro n; simp [buildTmpfsMounts]
  | cons d rest ih =>
    intro n
    simp only [buildTmpfsMounts, ih, List.length_cons, List.range'_succ, List.zipWith]

theorem zipWith_const_left (f : α → γ) :
    ∀ (l₁ : List α) (l₂ : List β), l₁.length = l₂.length →
      List.zipWith (fun a _ => f a) l₁ l₂ = l₁.map f := by
  intro l₁
  induction l₁ with
  | nil => intro l₂ _; simp
  | cons a rest ih =>
    intro l₂ hlen
    cases l₂ with
    | nil => simp at hlen
    | cons b rest₂ =>
      simp only [List.zipWith, List.map_cons, List.cons.injEq, true_and]
      exact ih rest₂ (by simpa using hlen)

theorem zipWith_const_right (f : β → γ) :
    ∀ (l₁ : List α) (l₂ : List β), l₁.length = l₂.length →
      List.zipWith (fun _ b => f b) l₁ l₂ = l₂.map f := by
  intro l₁
  induction l₁ with
  | nil => intro l₂ hlen; cases l₂ <;> simp_all
  | cons a rest ih =>
    intro l₂ hlen
    cases l₂ with
    | nil => simp at hlen
    | cons b rest₂ =>
      simp only [List.zipWith, List.map_cons, List.cons.injEq, true_and]
      exact ih rest₂ (by simpa using hlen)

/-! ## Claim C1 -/

/-- **C1.**  The Manifest Updater's cleanup phase removes exactly the
mounts whose `mountPath` lies in the union of the explicitly-removed
paths, the mount paths of the new host-path directives, and the mount
paths of the new tmpfs directives; and a pre-existing volume survives if
and only if its name is referenced by a kept mount, or its name was not
referenced by any removed mount (pre-existing orphans are preserved). -/
theorem c1_mount_removal_and_volume_gc (m : Manifest) (removeMounts : List Str)
    (hosts : List HostPathDirective) (tmpfss : List TmpfsDirective) :
    (cleanupMounts m removeMounts hosts tmpfss).container.volumeMounts =
      some (keptMounts m removeMounts hosts tmpfss) ∧
    (cleanupMounts m removeMounts hosts tmpfss).volumes =
      some ((m.volumes.getD []).filter (fun v => decide
        (v.name ∈ (keptMounts m removeMounts hosts tmpfss).map Mount.name ∨
         v.name ∉ (removedMounts m removeMounts hosts tmpfss).map Mount.name))) ∧
    ∀ v ∈ m.volumes.getD [],
      (v ∈ (cleanupMounts m removeMounts hosts tmpfss).volumes.getD [] ↔
        (v.name ∈ (keptMounts m removeMounts hosts tmpfss).map Mount.name ∨
         v.name ∉ (removedMounts m removeMounts hosts tmpfss).map Mount.name)) := by
  refine ⟨cleanupMounts_mounts m removeMounts hosts tmpfss,
    cleanupMounts_volumes m removeMounts hosts tmpfss, ?_⟩
  intro v hv
  rw [cleanupMounts_volumes m removeMounts hosts tmpfss]
  simp only [Option.getD_some, List.mem_filter, decide_eq_true_eq]
  constructor
  · intro h; exact h.2
  · intro h; exact ⟨hv, h⟩

/-- A concrete three-volume manifest: mounts at `/p0` and `/p1` use
volumes `"0"` and `"1"`; volume `"2"` is already orphaned. -/
def sampleManifest1 : Manifest := {
  container := {
    name := "inst".data
    image := "img".data
    command := none
    args := none
    stdin := false
    tty := false
    privileged := false
    env := none
    volumeMounts := some [⟨"0".data, "/p0".data, some false⟩,
                          ⟨"1".data, "/p1".data, some false⟩] }
  volumes := some [⟨"0".data, .hostPath "/h0".data⟩,
                   ⟨"1".data, .hostPath "/h1".data⟩,
                   ⟨"2".data, .hostPath "/h2".data⟩]
  restartPolicy := "Always".data }

/-- Witness for C1: removing the mount at `/p1` keeps the already-orphaned
volume `"2"` (and, checked directly, drops volume `"1"`). -/
theorem c1_mount_removal_and_volume_gc_witness :
    (⟨"2".data, .hostPath "/h2".data⟩ : Volume) ∈ sampleManifest1.volumes.getD [] ∧
    (⟨"2".data, .hostPath "/h2".data⟩ : Volume) ∈
      (cleanupMounts sampleManifest1 ["/p1".data] [] []).volumes.getD [] ∧
    (⟨"1".data, .hostPath "/h1".data⟩ : Volume) ∉
      (cleanupMounts sampleManifest1 ["/p1".data] [] []).volumes.getD [] := by
  refine ⟨by decide, ?_, by decide⟩
  exact ((c1_mount_removal_and_volume_gc sampleManifest1 ["/p1".data] [] []).2.2
    ⟨"2".data, .hostPath "/h2".data⟩ (by decide)).mpr (by decide)

/-- Full characterization of a successful manifest creation. -/
theorem createContainerManifest_ok_iff (args : CreateArgs) (inst : Str) (m : Manifest) :
    createContainerManifest args inst = .ok m ↔
      ∃ envVars rp, readDictionary args.container_env_file = .ok envVars ∧
        restartPolicyAPI args.container_restart_policy = some rp ∧
        m = {
          container := {
            name := inst
            image := args.container_image
            command := args.container_command.map (fun c => [c])
            args := args.container_arg
            stdin := args.container_stdin
            tty := args.container_tty
            privileged := args.container_privileged
            env := if args.container_env.foldl dictUpdate envVars = [] then none
                   else some (args.container_env.foldl dictUpdate envVars)
            volumeMounts := some ((buildHostMounts 0 args.container_mount_host_path).2 ++
              (buildTmpfsMounts args.container_mount_host_path.length
                args.container_mount_tmpfs).2) }
          volumes := some ((buildHostMounts 0 args.container_mount_host_path).1 ++
            (buildTmpfsMounts args.container_mount_host_path.length
              args.container_mount_tmpfs).1)
          restartPolicy := rp } := by
  constructor
  · intro h
    unfold createContainerManifest at h
    cases hrd : readDictionary args.container_env_file with
    | error e => rw [hrd] at h; simp [Bind.bind, Except.bind] at h
    | ok envVars =>
      rw [hrd] at h
      simp only [Bind.bind, Except.bind] at h
      cases hrp : restartPolicyAPI args.container_restart_policy with
      | none => rw [hrp] at h; simp at h
      | some rp =>
        rw [hrp] at h
        simp only [Except.ok.injEq] at h
        exact ⟨envVars, rp, rfl, rfl, h.symm⟩
  · rintro ⟨envVars, rp, hrd, hrp, rfl⟩
    unfold createContainerManifest
    rw [hrd]
    simp only [Bind.bind, Except.bind]
    rw [hrp]

theorem buildHostMounts_names (ds : List HostPathDirective) (n : Nat) :
    (buildHostMounts n ds).1.map Volume.name = (List.range' n ds.length).map natName ∧
    (buildHostMounts n ds).2.map Mount.name = (List.range' n ds.length).map natName := by
  rw [buildHostMounts_eq]
  constructor <;>
    · rw [List.map_zipWith]
      exact zipWith_const_left natName _ _ (by simp)

theorem buildTmpfsMounts_names (ds : List TmpfsDirective) (n : Nat) :
    (buildTmpfsMounts n ds).1.map Volume.name = (List.range' n ds.length).map natName ∧
    (buildTmpfsMounts n ds).2.map Mount.name = (List.range' n ds.length).map natName := by
  rw [buildTmpfsMounts_eq]
  constructor <;>
    · rw [List.map_zipWith]
      exact zipWith_const_left natName _ _ (by simp)

theorem buildHostMounts_src (ds : List HostPathDirective) (n : Nat) :
    (buildHostMounts n ds).1.map Volume.src =
      ds.map (fun d => VolumeSource.hostPath d.hostPath) := by
  rw [buildHostMounts_eq, List.map_zipWith]
  exact zipWith_const_right (fun (d : HostPathDirective) => VolumeSource.hostPath d.hostPath)
    _ _ (by simp)

theorem buildTmpfsMounts_src (ds : List TmpfsDirective) (n : Nat) :
    (buildTmpfsMounts n ds).1.map Volume.src =
      ds.map (fun _ => VolumeSource.emptyDirMemory) := by
  rw [buildTmpfsMounts_eq, List.map_zipWith]
  exact zipWith_const_right (fun _ => VolumeSource.emptyDirMemory) _ _ (by simp)

theorem buildHostMounts_length (ds : List HostPathDirective) (n : Nat) :
    (buildHostMounts n ds).1.length = ds.length := by
  rw [buildHostMounts_eq]; simp

theorem addHostMounts_names (used : List Str) (ds : List HostPathDirective) (next : Nat) :
    (addHostMounts used next ds).1.map Volume.name =
      (allocSeq used next ds.length).map natName ∧
    (addHostMounts used next ds).2.1.map Mount.name =
      (allocSeq used next ds.length).map natName := by
  rw [addHostMounts_eq]
  constructor <;>
    · rw [List.map_zipWith]
      exact zipWith_const_left natName _ _ (by simp [allocSeq_length])

theorem addTmpfsMounts_names (used : List Str) (ds : List TmpfsDirective) (next : Nat) :
    (addTmpfsMounts used next ds).1.map Volume.name =
      (allocSeq used next ds.length).map natName ∧
    (addTmpfsMounts used next ds).2.1.map Mount.name =
      (allocSeq used next ds.length).map natName := by
  rw [addTmpfsMounts_eq]
  constructor <;>
    · rw [List.map_zipWith]
      exact zipWith_const_left natName _ _ (by simp [allocSeq_length])

theorem addHostMounts_src (used : List Str) (ds : List HostPathDirective) (next : Nat) :
    (addHostMounts used next ds).1.map Volume.src =
      ds.map (fun d => VolumeSource.hostPath d.hostPath) := by
  rw [addHostMounts_eq, List.map_zipWith]
  exact zipWith_const_right (fun (d : HostPathDirective) => VolumeSource.hostPath d.hostPath)
    _ _ (by simp [allocSeq_length])

theorem addTmpfsMounts_src (used : List Str) (ds : List TmpfsDirective) (next : Nat) :
    (addTmpfsMounts used next ds).1.map Volume.src =
      ds.map (fun _ => VolumeSource.emptyDirMemory) := by
  rw [addTmpfsMounts_eq, List.map_zipWith]
  exact zipWith_const_right (fun _ => VolumeSource.emptyDirMemory) _ _
    (by simp [allocSeq_length])

theorem addHostMounts_length (used : List Str) (ds : List HostPathDirective) (next : Nat) :
    (addHostMounts used next ds).1.length = ds.length := by
  rw [addHostMounts_eq]; simp [allocSeq_length]

theorem addTmpfsMounts_length (used : List Str) (ds : List TmpfsDirective) (next : Nat) :
    (addTmpfsMounts used next ds).1.length = ds.length := by
  rw [addTmpfsMounts_eq]; simp [allocSeq_length]

theorem addHostMounts_final (used : List Str) (ds : List HostPathDirective) (next : Nat) :
    (addHostMounts used next ds).2.2 = allocFinal used next ds.length := by
  rw [addHostMounts_eq]

/-- The two appended volume lists of `updateMounts`, with their combined
names given by one allocation sequence. -/
theorem updateMounts_shape (m : Manifest) (rm : List Str)
    (hosts : List HostPathDirective) (tmpfss : List TmpfsDirective) :
    ∃ newVols newMounts,
      (updateMounts m rm hosts tmpfss).volumes =
        some (((cleanupMounts m rm hosts tmpfss).volumes.getD []) ++ newVols) ∧
      (updateMounts m rm hosts tmpfss).container.volumeMounts =
        some (((cleanupMounts m rm hosts tmpfss).container.volumeMounts.getD []) ++ newMounts) ∧
      newVols.map Volume.name =
        (allocSeq (((cleanupMounts m rm hosts tmpfss).volumes.getD []).map Volume.name) 0
          (hosts.length + tmpfss.length)).map natName ∧
      newMounts.map Mount.name = newVols.map Volume.name ∧
      newVols.length = hosts.length + tmpfss.length ∧
      (newVols.take hosts.length).map Volume.src =
        hosts.map (fun d => VolumeSource.hostPath d.hostPath) ∧
      (newVols.drop hosts.length).map Volume.src =
        tmpfss.map (fun _ => VolumeSource.emptyDirMemory) := by
  simp only [updateMounts]
  set m1 := cleanupMounts m rm hosts tmpfss with hm1
  set used := (m1.volumes.getD []).map Volume.name with hused
  refine ⟨(addHostMounts used 0 hosts).1 ++
    (addTmpfsMounts used (addHostMounts used 0 hosts).2.2 tmpfss).1,
    (addHostMounts used 0 hosts).2.1 ++
    (addTmpfsMounts used (addHostMounts used 0 hosts).2.2 tmpfss).2.1,
    by simp [List.append_assoc], by simp [List.append_assoc], ?_, ?_, ?_, ?_, ?_⟩
  · rw [List.map_append, (addHostMounts_names used hosts 0).1,
      (addTmpfsMounts_names used tmpfss _).1, addHostMounts_final,
      allocSeq_split used hosts.length 0 tmpfss.length, List.map_append]
  · rw [List.map_append, List.map_append, (addHostMounts_names used hosts 0).1,
      (addTmpfsMounts_names used tmpfss _).1, (addHostMounts_names used hosts 0).2,
      (addTmpfsMounts_names used tmpfss _).2]
  · simp [addHostMounts_length, addTmpfsMounts_length]
  · rw [List.take_left' (addHostMounts_length used hosts 0), addHostMounts_src]
  · rw [List.drop_left' (addHostMounts_length used hosts 0), addTmpfsMounts_src]

theorem map_eq_map_get {α β γ : Type} {l₁ : List α} {l₂ : List β} (f : α → γ) (g : β → γ)
    (h : l₁.map f = l₂.map g) (i : Nat) (h₁ : i < l₁.length) (h₂ : i < l₂.length) :
    f (l₁.get ⟨i, h₁⟩) = g (l₂.get ⟨i, h₂⟩) := by
  have hh : (l₁.map f)[i]? = (l₂.map g)[i]? := by rw [h]
  rw [List.getElem?_map, List.getElem?_map, List.getElem?_eq_getElem h₁,
    List.getElem?_eq_getElem h₂] at hh
  simpa using hh

/-! ## Claim C2 -/

/-- **C2.**  Synthetic volume names: on creation, names are the sequential
integers 0,1,2,… rendered as strings, given first to all host-path mounts
in input order and then to all tmpfs mounts in input order; on update,
each newly added mount (same host-path-then-tmpfs order) receives the
smallest non-negative integer not already used as a name by any volume
still on the manifest, counting surviving volumes and volumes added
earlier in the same update. -/
theorem c2_synthetic_volume_names :
    (∀ (args : CreateArgs) (inst : Str) (m : Manifest),
      createContainerManifest args inst = .ok m →
      ∃ vols, m.volumes = some vols ∧
        vols.map Volume.name =
          (List.range (args.container_mount_host_path.length +
            args.container_mount_tmpfs.length)).map natName ∧
        (m.container.volumeMounts.getD []).map Mount.name = vols.map Volume.name ∧
        (vols.take args.container_mount_host_path.length).map Volume.src =
          args.container_mount_host_path.map (fun d => VolumeSource.hostPath d.hostPath) ∧
        (vols.drop args.container_mount_host_path.length).map Volume.src =
          args.container_mount_tmpfs.map (fun _ => VolumeSource.emptyDirMemory)) ∧
    (∀ (m : Manifest) (rm : List Str) (hosts : List HostPathDirective)
        (tmpfss : List TmpfsDirective),
      ∃ newVols newMounts,
        (updateMounts m rm hosts tmpfss).volumes =
          some (((cleanupMounts m rm hosts tmpfss).volumes.getD []) ++ newVols) ∧
        (updateMounts m rm hosts tmpfss).container.volumeMounts =
          some (((cleanupMounts m rm hosts tmpfss).container.volumeMounts.getD []) ++
            newMounts) ∧
        newMounts.map Mount.name = newVols.map Volume.name ∧
        newVols.length = hosts.length + tmpfss.length ∧
        (newVols.take hosts.length).map Volume.src =
          hosts.map (fun d => VolumeSource.hostPath d.hostPath) ∧
        (newVols.drop hosts.length).map Volume.src =
          tmpfss.map (fun _ => VolumeSource.emptyDirMemory) ∧
        ∀ i (hi : i < newVols.length), ∃ n,
          (newVols.get ⟨i, hi⟩).name = natName n ∧
          natName n ∉ ((cleanupMounts m rm hosts tmpfss).volumes.getD []).map Volume.name ∧
          natName n ∉ (newVols.take i).map Volume.name ∧
          ∀ j < n,
            natName j ∈ ((cleanupMounts m rm hosts tmpfss).volumes.getD []).map Volume.name ∨
            natName j ∈ (newVols.take i).map Volume.name) := by
  constructor
  · intro args inst m hok
    rw [createContainerManifest_ok_iff] at hok
    obtain ⟨envVars, rp, _, _, rfl⟩ := hok
    refine ⟨_, rfl, ?_, ?_, ?_, ?_⟩
    · rw [List.map_append, (buildHostMounts_names args.container_mount_host_path 0).1,
        (buildTmpfsMounts_names args.container_mount_tmpfs _).1]
      rw [← List.map_append, List.range_eq_range']
      congr 1
      have hr := List.range'_append_1 0 args.container_mount_host_path.length
        args.container_mount_tmpfs.length
      rw [Nat.zero_add, Nat.add_comm args.container_mount_tmpfs.length
        args.container_mount_host_path.length] at hr
      exact hr
    · rw [Option.getD_some, List.map_append, List.map_append,
        (buildHostMounts_names args.container_mount_host_path 0).1,
        (buildTmpfsMounts_names args.container_mount_tmpfs _).1,
        (buildHostMounts_names args.container_mount_host_path 0).2,
        (buildTmpfsMounts_names args.container_mount_tmpfs _).2]
    · rw [List.take_left' (buildHostMounts_length args.container_mount_host_path 0),
        buildHostMounts_src]
    · rw [List.drop_left' (buildHostMounts_length args.container_mount_host_path 0),
        buildTmpfsMounts_src]
  · intro m rm hosts tmpfss
    obtain ⟨newVols, newMounts, h1, h2, hnames, hmn, hlen, hsrc1, hsrc2⟩ :=
      updateMounts_shape m rm hosts tmpfss
    refine ⟨newVols, newMounts, h1, h2, hmn, hlen, hsrc1, hsrc2, ?_⟩
    intro i hi
    set used := ((cleanupMounts m rm hosts tmpfss).volumes.getD []).map Volume.name
      with husedDef
    set s := allocSeq used 0 (hosts.length + tmpfss.length) with hsDef
    have hslen : s.length = hosts.length + tmpfss.length := allocSeq_length used _ 0
    have hilen : i < s.length := by omega
    obtain ⟨hfree, hnotprior, hleast⟩ := allocSeq_least used (hosts.length + tmpfss.length)
      0 [] (fun j hj => absurd hj (by omega)) (by simp) i hilen
    have htake : (newVols.take i).map Volume.name = (s.take i).map natName := by
      rw [List.map_take, List.map_take, hnames]
    refine ⟨s.get ⟨i, hilen⟩, ?_, hfree, ?_, ?_⟩
    · exact map_eq_map_get Volume.name natName hnames i hi hilen
    · intro hmem
      rw [htake] at hmem
      obtain ⟨x, hx, hxe⟩ := List.mem_map.mp hmem
      have := natName_injective hxe
      subst this
      exact hnotprior (by simpa using hx)
    · intro j hj
      rcases hleast j hj with h | h
      · exact Or.inl h
      · refine Or.inr ?_
        rw [htake]
        exact List.mem_map.mpr ⟨j, by simpa using h, rfl⟩

/-- A manifest whose surviving volumes are named `"0"` and `"2"`
(`"1"` was removed and garbage-collected earlier). -/
def sampleManifest2 : Manifest := {
  container := {
    name := "inst".data
    image := "img".data
    command := none
    args := none
    stdin := false
    tty := false
    privileged := false
    env := none
    volumeMounts := some [⟨"0".data, "/a".data, some false⟩,
                          ⟨"2".data, "/b".data, some false⟩] }
  volumes := some [⟨"0".data, .hostPath "/h0".data⟩,
                   ⟨"2".data, .hostPath "/h2".data⟩]
  restartPolicy := "Always".data }

def sampleCreateArgs : CreateArgs := {
  container_image := "img".data
  container_command := none
  container_arg := none
  container_stdin := false
  container_tty := false
  container_privileged := false
  container_env_file := none
  container_env := []
  container_mount_host_path := [⟨"/h0".data, "/m0".data, none⟩]
  container_mount_tmpfs := [⟨"/t0".data⟩]
  container_restart_policy := "never".data }

/-- The manifest `createContainerManifest sampleCreateArgs "i"` builds. -/
def sampleCreated : Manifest := {
  container := {
    name := "i".data
    image := "img".data
    command := none
    args := none
    stdin := false
    tty := false
    privileged := false
    env := none
    volumeMounts := some [⟨"0".data, "/m0".data, some false⟩,
                          ⟨"1".data, "/t0".data, none⟩] }
  volumes := some [⟨"0".data, .hostPath "/h0".data⟩,
                   ⟨"1".data, .emptyDirMemory⟩]
  restartPolicy := "Never".data }

/-- Witness for C2: with surviving volumes named `{"0","2"}`, one new
host-path mount is named `"1"`; and a fresh creation with one host-path
and one tmpfs directive names its volumes `"0"`, `"1"` in that order. -/
theorem c2_synthetic_volume_names_witness :
    (updateMounts sampleManifest2 [] [⟨"/h".data, "/c".data, none⟩] []).volumes =
      some [⟨"0".data, .hostPath "/h0".data⟩, ⟨"2".data, .hostPath "/h2".data⟩,
            ⟨"1".data, .hostPath "/h".data⟩] ∧
    (∃ vols, sampleCreated.volumes = some vols ∧
      vols.map Volume.name =
        (List.range (sampleCreateArgs.container_mount_host_path.length +
          sampleCreateArgs.container_mount_tmpfs.length)).map natName ∧
      (sampleCreated.container.volumeMounts.getD []).map Mount.name =
        vols.map Volume.name ∧
      (vols.take sampleCreateArgs.container_mount_host_path.length).map Volume.src =
        sampleCreateArgs.container_mount_host_path.map
          (fun d => VolumeSource.hostPath d.hostPath) ∧
      (vols.drop sampleCreateArgs.container_mount_host_path.length).map Volume.src =
        sampleCreateArgs.container_mount_tmpfs.map
          (fun _ => VolumeSource.emptyDirMemory)) :=
  ⟨by decide,
   c2_synthetic_volume_names.1 sampleCreateArgs "i".data sampleCreated (by rfl)⟩

/-! ## Claim C3: referential integrity -/

/-- Referential integrity: every mount references an existing volume, and
volume names are pairwise distinct. -/
def WellFormed (m : Manifest) : Prop :=
  (∀ mnt ∈ m.container.volumeMounts.getD [], ∃ v ∈ m.volumes.getD [], v.name = mnt.name) ∧
  ((m.volumes.getD []).map Volume.name).Nodup

instance (m : Manifest) : Decidable (WellFormed m) := by
  unfold WellFormed
  infer_instance

theorem wellFormed_congr (m₁ m₂ : Manifest) (hv : m₁.volumes = m₂.volumes)
    (hm : m₁.container.volumeMounts = m₂.container.volumeMounts) :
    WellFormed m₁ ↔ WellFormed m₂ := by
  simp [WellFormed, hv, hm]

theorem applyScalars1_volumes (m : Manifest) (args : UpdateArgs) :
    (applyScalars1 m args).volumes = m.volumes ∧
    (applyScalars1 m args).container.volumeMounts = m.container.volumeMounts ∧
    (applyScalars1 m args).container.env = m.container.env := by
  unfold applyScalars1
  cases args.container_image <;> cases args.container_command <;>
    cases args.clear_container_command <;> cases args.container_arg <;>
    cases args.clear_container_args <;> cases args.container_privileged <;>
    exact ⟨rfl, rfl, rfl⟩

theorem applyScalars2_volumes (m : Manifest) (args : UpdateArgs) :
    (applyScalars2 m args).volumes = m.volumes ∧
    (applyScalars2 m args).container.volumeMounts = m.container.volumeMounts ∧
    (applyScalars2 m args).container.env = m.container.env := by
  unfold applyScalars2
  cases args.container_stdin <;> cases args.container_tty <;> exact ⟨rfl, rfl, rfl⟩

theorem applyRestartPolicy_ok (m : Manifest) (args : UpdateArgs) (m' : Manifest)
    (h : applyRestartPolicy m args = .ok m') :
    m'.volumes = m.volumes ∧ m'.container.volumeMounts = m.container.volumeMounts ∧
    m'.container.env = m.container.env := by
  unfold applyRestartPolicy at h
  split at h
  · cases h; exact ⟨rfl, rfl, rfl⟩
  · split at h
    · cases h
    · cases h; exact ⟨rfl, rfl, rfl⟩

/-- The dictionary the env step merges: remove keys from the current
mapping, merge the env-file values, merge the explicit directives. -/
def finalEnv (m : Manifest) (removeKeys : List Str) (fd : PyDict)
    (explicit : List PyDict) : PyDict :=
  explicit.foldl dictUpdate
    (dictUpdate (removeKeys.foldl dictPop (dictFromPairs (m.container.env.getD []))) fd)

theorem updateEnv_ok_iff (m : Manifest) (removeKeys : List Str)
    (envFile : Option (Str × List Str)) (explicit : List PyDict) (m' : Manifest) :
    updateEnv m removeKeys envFile explicit = .ok m' ↔
      ∃ fd, readDictionary envFile = .ok fd ∧
        ((finalEnv m removeKeys fd explicit = [] ∧ m' = m) ∨
         (finalEnv m removeKeys fd explicit ≠ [] ∧
          m' = { m with container := { m.container with
            env := some (finalEnv m removeKeys fd explicit) } })) := by
  unfold updateEnv finalEnv
  cases hrd : readDictionary envFile with
  | error e =>
    simp only [Bind.bind, Except.bind]
    constructor
    · intro h; cases h
    · rintro ⟨fd, hfd, _⟩; cases hfd
  | ok fd =>
    simp only [Bind.bind, Except.bind]
    by_cases hemp : explicit.foldl dictUpdate
        (dictUpdate (removeKeys.foldl dictPop (dictFromPairs (m.container.env.getD []))) fd) = []
    · rw [if_pos hemp]
      constructor
      · intro h; cases h; exact ⟨fd, rfl, Or.inl ⟨hemp, rfl⟩⟩
      · rintro ⟨fd', hfd', h | h⟩
        · cases hfd'; rw [h.2]
        · cases hfd'; exact absurd hemp h.1
    · rw [if_neg hemp]
      constructor
      · intro h; cases h; exact ⟨fd, rfl, Or.inr ⟨hemp, rfl⟩⟩
      · rintro ⟨fd', hfd', h | h⟩
        · cases hfd'; exact absurd h.1 hemp
        · cases hfd'; rw [h.2]

theorem updateEnv_preserves (m : Manifest) (removeKeys : List Str)
    (envFile : Option (Str × List Str)) (explicit : List PyDict) (m' : Manifest)
    (h : updateEnv m removeKeys envFile explicit = .ok m') :
    m'.volumes = m.volumes ∧ m'.container.volumeMounts = m.container.volumeMounts := by
  rw [updateEnv_ok_iff] at h
  obtain ⟨fd, _, h | h⟩ := h
  · rw [h.2]; exact ⟨rfl, rfl⟩
  · rw [h.2]; exact ⟨rfl, rfl⟩

theorem updateMetadata_ok_iff (m : Manifest) (args : UpdateArgs) (m' : Manifest) :
    updateMetadata m args = .ok m' ↔
      ∃ me, updateEnv (updateMounts (applyScalars1 m args) args.remove_container_mounts
          args.container_mount_host_path args.container_mount_tmpfs)
          args.remove_container_env.flatten args.container_env_file
          args.container_env = .ok me ∧
        applyRestartPolicy (applyScalars2 me args) args = .ok m' := by
  unfold updateMetadata
  cases he : updateEnv (updateMounts (applyScalars1 m args) args.remove_container_mounts
      args.container_mount_host_path args.container_mount_tmpfs)
      args.remove_container_env.flatten args.container_env_file args.container_env with
  | error e =>
    simp only [Bind.bind, Except.bind, he]
    constructor
    · intro h; cases h
    · rintro ⟨me, hme, _⟩; cases hme
  | ok me =>
    simp only [Bind.bind, Except.bind, he]
    constructor
    · intro h; exact ⟨me, rfl, h⟩
    · rintro ⟨me', hme', h⟩; cases hme'; exact h

theorem updateMounts_wf (m : Manifest) (rm : List Str) (hosts : List HostPathDirective)
    (tmpfss : List TmpfsDirective) (h : WellFormed m) :
    WellFormed (updateMounts m rm hosts tmpfss) := by
  obtain ⟨newVols, newMounts, h1, h2, hnames, hmn, hlen, _, _⟩ :=
    updateMounts_shape m rm hosts tmpfss
  have hkept := cleanupMounts_mounts m rm hosts tmpfss
  have hvol := cleanupMounts_volumes m rm hosts tmpfss
  constructor
  · intro mnt hmnt
    rw [h2, Option.getD_some] at hmnt
    rw [h1, Option.getD_some]
    rcases List.mem_append.mp hmnt with hk | hn
    · rw [hkept, Option.getD_some] at hk
      have hmem : mnt ∈ m.container.volumeMounts.getD [] := List.mem_of_mem_filter hk
      obtain ⟨v, hv, hvname⟩ := h.1 mnt hmem
      refine ⟨v, List.mem_append_left _ ?_, hvname⟩
      rw [hvol, Option.getD_some]
      refine List.mem_filter.mpr ⟨hv, ?_⟩
      simp only [decide_eq_true_eq]
      left
      rw [hvname]
      exact List.mem_map_of_mem Mount.name hk
    · have hname : mnt.name ∈ newMounts.map Mount.name := List.mem_map_of_mem Mount.name hn
      rw [hmn] at hname
      obtain ⟨v, hv, hvname⟩ := List.mem_map.mp hname
      exact ⟨v, List.mem_append_right _ hv, hvname⟩
  · rw [h1, Option.getD_some, List.map_append, List.nodup_append]
    refine ⟨?_, ?_, ?_⟩
    · rw [hvol, Option.getD_some]
      exact h.2.sublist ((List.filter_sublist _).map Volume.name)
    · rw [hnames]
      exact allocSeq_names_nodup _ _ _
    · intro a ha hb
      rw [hnames] at hb
      obtain ⟨n, hn, rfl⟩ := List.mem_map.mp hb
      exact allocSeq_free _ _ _ n hn ha

/-- **C3.**  Referential integrity is an invariant: every manifest the
Builder produces, and every manifest the Updater produces from an input
satisfying the invariant, has each `volumeMounts` entry referencing an
existing volume by name, with volume names pairwise distinct. -/
theorem c3_referential_integrity :
    (∀ (args : CreateArgs) (inst : Str) (m : Manifest),
      createContainerManifest args inst = .ok m → WellFormed m) ∧
    (∀ (m : Manifest) (args : UpdateArgs) (m' : Manifest),
      WellFormed m → updateMetadata m args = .ok m' → WellFormed m') := by
  constructor
  · intro args inst m hok
    rw [createContainerManifest_ok_iff] at hok
    obtain ⟨envVars, rp, _, _, rfl⟩ := hok
    have heq : ((buildHostMounts 0 args.container_mount_host_path).2 ++
        (buildTmpfsMounts args.container_mount_host_path.length
          args.container_mount_tmpfs).2).map Mount.name =
        ((buildHostMounts 0 args.container_mount_host_path).1 ++
        (buildTmpfsMounts args.container_mount_host_path.length
          args.container_mount_tmpfs).1).map Volume.name := by
      rw [List.map_append, List.map_append,
        (buildHostMounts_names args.container_mount_host_path 0).1,
        (buildTmpfsMounts_names args.container_mount_tmpfs _).1,
        (buildHostMounts_names args.container_mount_host_path 0).2,
        (buildTmpfsMounts_names args.container_mount_tmpfs _).2]
    constructor
    · intro mnt hmnt
      simp only [Option.getD_some] at hmnt ⊢
      have hname : mnt.name ∈ ((buildHostMounts 0 args.container_mount_host_path).2 ++
          (buildTmpfsMounts args.container_mount_host_path.length
            args.container_mount_tmpfs).2).map Mount.name :=
        List.mem_map_of_mem Mount.name hmnt
      rw [heq] at hname
      obtain ⟨v, hv, hvname⟩ := List.mem_map.mp hname
      exact ⟨v, hv, hvname⟩
    · simp only [Option.getD_some]
      rw [List.map_append, (buildHostMounts_names args.container_mount_host_path 0).1,
        (buildTmpfsMounts_names args.container_mount_tmpfs _).1, ← List.map_append]
      refine List.Nodup.map natName_injective ?_
      have hr := List.range'_append_1 0 args.container_mount_host_path.length
        args.container_mount_tmpfs.length
      rw [Nat.zero_add] at hr
      rw [hr]
      exact List.nodup_range' _ _
  · intro m args m' hwf hok
    rw [updateMetadata_ok_iff] at hok
    obtain ⟨me, henv, hrp⟩ := hok
    have h1 := applyScalars1_volumes m args
    have hwf1 : WellFormed (applyScalars1 m args) :=
      (wellFormed_congr _ _ h1.1 h1.2.1).mpr hwf
    have hwf2 := updateMounts_wf (applyScalars1 m args) args.remove_container_mounts
      args.container_mount_host_path args.container_mount_tmpfs hwf1
    have hpres := updateEnv_preserves _ _ _ _ _ henv
    have hwf3 : WellFormed me := (wellFormed_congr _ _ hpres.1 hpres.2).mpr hwf2
    have h2 := applyScalars2_volumes me args
    have hwf4 : WellFormed (applyScalars2 me args) :=
      (wellFormed_congr _ _ h2.1 h2.2.1).mpr hwf3
    have hpres2 := applyRestartPolicy_ok _ args m' hrp
    exact (wellFormed_congr _ _ hpres2.1 hpres2.2.1).mpr hwf4

/-- The update directive set in which nothing is specified. -/
def emptyUpdateArgs : UpdateArgs := {
  container_image := none
  container_command := none
  clear_container_command := false
  container_arg := none
  clear_container_args := false
  container_privileged := none
  remove_container_mounts := []
  container_mount_host_path := []
  container_mount_tmpfs := []
  remove_container_env := []
  container_env_file := none
  container_env := []
  container_stdin := none
  container_tty := none
  container_restart_policy := none }

/-- Witness for C3: a concrete creation and a concrete update both yield
well-formed manifests. -/
theorem c3_referential_integrity_witness :
    WellFormed sampleCreated ∧
    (updateMetadata sampleManifest1 emptyUpdateArgs = .ok sampleManifest1 ∧
      WellFormed sampleManifest1) :=
  ⟨c3_referential_integrity.1 sampleCreateArgs "i".data sampleCreated (by rfl),
   by rfl,
   c3_referential_integrity.2 sampleManifest1 emptyUpdateArgs sampleManifest1
     (by decide) (by rfl)⟩

/-! ## Environment reconciliation lemmas -/

theorem lookupLast_eq_none_iff (d : List (Str × Str)) (k : Str) :
    lookupLast d k = none ↔ k ∉ d.map Prod.fst := by
  induction d with
  | nil => simp [lookupLast]
  | cons kv rest ih =>
    simp only [lookupLast, List.map_cons, List.mem_cons]
    cases hl : lookupLast rest k with
    | some v =>
      have hk : k ∈ rest.map Prod.fst := by
        by_contra hc
        exact absurd (ih.mpr hc) (by simp [hl])
      simp [hk]
    | none =>
      by_cases he : kv.1 = k
      · simp [he]
      · have h2 : ¬(k = kv.1) := fun hh => he hh.symm
        simp [he, h2, ih.mp hl]

theorem lookupLast_eq_get? (d : PyDict) (h : (dictKeys d).Nodup) (k : Str) :
    lookupLast d k = dictGet? d k := by
  induction d with
  | nil => simp [lookupLast, dictGet?]
  | cons kv rest ih =>
    simp only [dictKeys, List.map_cons, List.nodup_cons] at h
    have ihr := ih h.2
    simp only [lookupLast, dictGet?, ihr]
    by_cases he : kv.1 = k
    · have hnone : dictGet? rest k = none := by
        rw [← ihr, lookupLast_eq_none_iff]
        rw [← he]
        exact h.1
      simp [hnone, he]
    · rw [if_neg he]
      cases hg : dictGet? rest k <;> simp [hg, he]

theorem dictGet?_fromPairs (l : List (Str × Str)) (k : Str) :
    dictGet? (dictFromPairs l) k = lookupLast l k := by
  unfold dictFromPairs
  rw [dictGet?_update]
  cases lookupLast l k <;> simp [dictGet?]

theorem dictGet?_foldl_pop (removeKeys : List Str) :
    ∀ (d : PyDict), (dictKeys d).Nodup → ∀ k,
      dictGet? (removeKeys.foldl dictPop d) k =
        if k ∈ removeKeys then none else dictGet? d k := by
  induction removeKeys with
  | nil => intro d _ k; simp
  | cons r rest ih =>
    intro d hnd k
    simp only [List.foldl_cons]
    rw [ih (dictPop d r) (dictKeys_nodup_pop d r hnd) k, dictGet?_pop d r k hnd]
    by_cases h1 : k ∈ rest
    · simp [h1]
    · by_cases h2 : k = r
      · simp [h1, h2]
      · simp [h1, h2]

/-- The value the explicit env directives assign to `k`: directives later
in the list override earlier ones, later pairs in one directive override
earlier pairs. -/
def lookupEnvDicts : List PyDict → Str → Option Str
  | [], _ => none
  | e :: rest, k => (lookupEnvDicts rest k).or (lookupLast e k)

theorem dictGet?_foldl_update (explicit : List PyDict) :
    ∀ (d : PyDict) (k : Str),
      dictGet? (explicit.foldl dictUpdate d) k =
        (lookupEnvDicts explicit k).or (dictGet? d k) := by
  induction explicit with
  | nil => intro d k; simp [lookupEnvDicts]
  | cons e rest ih =>
    intro d k
    simp only [List.foldl_cons, lookupEnvDicts]
    rw [ih (dictUpdate d e) k, dictGet?_update]
    cases lookupEnvDicts rest k <;> cases lookupLast e k <;> simp

theorem dictKeys_nodup_foldl_pop (removeKeys : List Str) :
    ∀ (d : PyDict), (dictKeys d).Nodup →
      (dictKeys (removeKeys.foldl dictPop d)).Nodup := by
  induction removeKeys with
  | nil => intro d h; simpa
  | cons r rest ih =>
    intro d h
    simp only [List.foldl_cons]
    exact ih (dictPop d r) (dictKeys_nodup_pop d r h)

theorem dictKeys_nodup_fromPairs (l : List (Str × Str)) :
    (dictKeys (dictFromPairs l)).Nodup :=
  dictKeys_nodup_update [] l (by simp [dictKeys])

theorem readLinesAux_nodup (filename : Str) (lines : List Str) :
    ∀ (i : Nat) (d fd : PyDict), (dictKeys d).Nodup →
      readLinesAux filename i d lines = .ok fd → (dictKeys fd).Nodup := by
  induction lines with
  | nil =>
    intro i d fd hnd h
    simp only [readLinesAux, Except.ok.injEq] at h
    exact h ▸ hnd
  | cons line rest ih =>
    intro i d fd hnd h
    simp only [readLinesAux] at h
    by_cases h1 : line.length ≤ 1
    · rw [if_pos h1] at h
      exact ih (i + 1) d fd hnd h
    · rw [if_neg h1] at h
      by_cases h2 : line.head? = some '#'
      · rw [if_pos h2] at h
        exact ih (i + 1) d fd hnd h
      · rw [if_neg h2] at h
        cases hidx : pyFind '=' line with
        | none => rw [hidx] at h; cases h
        | some loc =>
          rw [hidx] at h
          exact ih (i + 1) _ fd (dictKeys_nodup_insert d _ _ hnd) h

theorem readDictionary_nodup (envFile : Option (Str × List Str)) (fd : PyDict)
    (h : readDictionary envFile = .ok fd) : (dictKeys fd).Nodup := by
  cases envFile with
  | none => cases h; simp [dictKeys]
  | some p =>
    exact readLinesAux_nodup p.1 p.2 0 [] fd (by simp [dictKeys]) h

/-! ## Claim C5 -/

/-- **C5.**  The Manifest Updater computes the final environment by
starting from the mapping derived from the manifest's existing
`{name, value}` list, removing the explicitly-removed keys (removing an
absent key is not an error — the function is total), merging the env-file
assignments, then merging the explicit per-directive assignments last:
for every key the stored value is explicit-over-file-over-(original minus
removed).  The merged mapping is what the manifest stores whenever it is
non-empty. -/
theorem c5_env_reconciliation (m : Manifest) (removeKeys : List Str)
    (envFile : Option (Str × List Str)) (explicit : List PyDict)
    (m' : Manifest) (fd : PyDict)
    (hok : updateEnv m removeKeys envFile explicit = .ok m')
    (hfd : readDictionary envFile = .ok fd) :
    (∀ k, dictGet? (finalEnv m removeKeys fd explicit) k =
      (lookupEnvDicts explicit k).or ((dictGet? fd k).or
        (if k ∈ removeKeys then none
         else lookupLast (m.container.env.getD []) k))) ∧
    (finalEnv m removeKeys fd explicit ≠ [] →
      m'.container.env = some (finalEnv m removeKeys fd explicit)) ∧
    (finalEnv m removeKeys fd explicit = [] → m' = m) := by
  refine ⟨?_, ?_, ?_⟩
  · intro k
    unfold finalEnv
    rw [dictGet?_foldl_update, dictGet?_update,
      dictGet?_foldl_pop removeKeys _ (dictKeys_nodup_fromPairs _) k,
      dictGet?_fromPairs, lookupLast_eq_get? fd (readDictionary_nodup envFile fd hfd) k]
  · intro hne
    rw [updateEnv_ok_iff] at hok
    obtain ⟨fd', hfd', h | h⟩ := hok
    · rw [hfd] at hfd'
      cases hfd'
      exact absurd h.1 hne
    · rw [hfd] at hfd'
      cases hfd'
      rw [h.2]
  · intro hemp
    rw [updateEnv_ok_iff] at hok
    obtain ⟨fd', hfd', h | h⟩ := hok
    · rw [hfd] at hfd'
      cases hfd'
      exact h.2
    · rw [hfd] at hfd'
      cases hfd'
      exact absurd hemp h.1

/-- The manifest of the claim's worked example: existing env `{A: "1"}`. -/
def sampleEnvManifest : Manifest := {
  container := {
    name := "inst".data
    image := "img".data
    command := none
    args := none
    stdin := false
    tty := false
    privileged := false
    env := some [("A".data, "1".data)]
    volumeMounts := some [] }
  volumes := some []
  restartPolicy := "Always".data }

/-- Witness for C5: starting env `{A:"1"}`, env-file `{A:"2", B:"3"}`,
explicit directive `{A:"4"}` yields exactly `{A:"4", B:"3"}`. -/
theorem c5_env_reconciliation_witness :
    (∃ m', updateEnv sampleEnvManifest []
        (some ("f".data, ["A=2\n".data, "B=3\n".data])) [[("A".data, "4".data)]] = .ok m' ∧
      m'.container.env = some [("A".data, "4".data), ("B".data, "3".data)]) ∧
    dictGet? (finalEnv sampleEnvManifest [] [("A".data, "2".data), ("B".data, "3".data)]
      [[("A".data, "4".data)]]) "A".data = some "4".data := by
  constructor
  · exact ⟨_, rfl, rfl⟩
  · have h := (c5_env_reconciliation sampleEnvManifest []
      (some ("f".data, ["A=2\n".data, "B=3\n".data])) [[("A".data, "4".data)]]
      { sampleEnvManifest with container := { sampleEnvManifest.container with
          env := some [("A".data, "4".data), ("B".data, "3".data)] } }
      [("A".data, "2".data), ("B".data, "3".data)] (by rfl) (by rfl)).1 "A".data
    rw [h]
    rfl

/-! ## Claim C6 -/

/-- Creation directives with no mounts and no env inputs. -/
def plainCreateArgs : CreateArgs := {
  container_image := "img".data
  container_command := none
  container_arg := none
  container_stdin := false
  container_tty := false
  container_privileged := false
  container_env_file := none
  container_env := []
  container_mount_host_path := []
  container_mount_tmpfs := []
  container_restart_policy := "never".data }

/-- The manifest `plainCreateArgs` builds: `env` omitted, but `volumes`
and `volumeMounts` present as empty lists. -/
def plainCreated : Manifest := {
  container := {
    name := "i".data
    image := "img".data
    command := none
    args := none
    stdin := false
    tty := false
    privileged := false
    env := none
    volumeMounts := some [] }
  volumes := some []
  restartPolicy := "Never".data }

/-- **C6 counterexample.**  With existing env `{A:"1"}` and the directive
removing `A`, the merged mapping is empty, yet the updater returns the
manifest unchanged: the stale env list `[("A","1")]` is still present, not
omitted.  Likewise, a creation with no mount directives stores `volumes`
and `volumeMounts` as present-but-empty lists, not omitted fields. -/
theorem c6_counterexample :
    updateEnv sampleEnvManifest ["A".data] none [] = .ok sampleEnvManifest ∧
    finalEnv sampleEnvManifest ["A".data] [] [] = [] ∧
    sampleEnvManifest.container.env = some [("A".data, "1".data)] ∧
    createContainerManifest plainCreateArgs "i".data = .ok plainCreated ∧
    plainCreated.volumes = some [] ∧
    plainCreated.container.volumeMounts = some [] :=
  ⟨rfl, rfl, rfl, rfl, rfl, rfl⟩

/-- **C6 (amended).**  When the merged environment mapping is empty the
update path leaves the manifest unchanged (the previous env field,
possibly a stale list, persists — it is not omitted); the creation path
omits `env` when the merged creation mapping is empty, but always stores
`volumes` and `volumeMounts`, as empty lists when there are no mount
directives. -/
theorem c6_empty_field_behavior :
    (∀ (m : Manifest) (removeKeys : List Str) (envFile : Option (Str × List Str))
        (explicit : List PyDict) (fd : PyDict),
      readDictionary envFile = .ok fd →
      finalEnv m removeKeys fd explicit = [] →
      updateEnv m removeKeys envFile explicit = .ok m) ∧
    (∀ (args : CreateArgs) (inst : Str) (m : Manifest) (envVars : PyDict),
      createContainerManifest args inst = .ok m →
      readDictionary args.container_env_file = .ok envVars →
      args.container_env.foldl dictUpdate envVars = [] →
      m.container.env = none) ∧
    (∀ (args : CreateArgs) (inst : Str) (m : Manifest),
      createContainerManifest args inst = .ok m →
      args.container_mount_host_path = [] →
      args.container_mount_tmpfs = [] →
      m.volumes = some [] ∧ m.container.volumeMounts = some []) := by
  refine ⟨?_, ?_, ?_⟩
  · intro m removeKeys envFile explicit fd hfd hemp
    rw [updateEnv_ok_iff]
    exact ⟨fd, hfd, Or.inl ⟨hemp, rfl⟩⟩
  · intro args inst m envVars hok hrd hemp
    rw [createContainerManifest_ok_iff] at hok
    obtain ⟨envVars', rp, hrd', _, rfl⟩ := hok
    rw [hrd] at hrd'
    cases hrd'
    simp [hemp]
  · intro args inst m hok h1 h2
    rw [createContainerManifest_ok_iff] at hok
    obtain ⟨envVars', rp, _, _, rfl⟩ := hok
    rw [h1, h2]
    exact ⟨rfl, rfl⟩

/-- Witness for the amended C6. -/
theorem c6_empty_field_behavior_witness :
    updateEnv sampleEnvManifest ["A".data] none [] = .ok sampleEnvManifest ∧
    plainCreated.container.env = none ∧
    (plainCreated.volumes = some [] ∧ plainCreated.container.volumeMounts = some []) :=
  ⟨c6_empty_field_behavior.1 sampleEnvManifest ["A".data] none [] [] (by rfl) (by rfl),
   c6_empty_field_behavior.2.1 plainCreateArgs "i".data plainCreated [] (by rfl) (by rfl)
     (by rfl),
   c6_empty_field_behavior.2.2 plainCreateArgs "i".data plainCreated (by rfl) (by rfl)
     (by rfl)⟩

/-! ## Claim C7: round-trip -/

theorem splitMounts_nil (l : List Mount) :
    splitMounts [] l = (l, l.map Mount.name, []) := by
  rw [splitMounts_eq]
  simp

theorem filterVolumes_nil_removed (usedNames : List Str) (vols : List Volume) :
    filterVolumes usedNames [] vols = vols := by
  rw [filterVolumes_eq]
  simp

theorem cleanupMounts_id (m : Manifest) (vm : List Mount) (vl : List Volume)
    (hvm : m.container.volumeMounts = some vm) (hv : m.volumes = some vl) :
    cleanupMounts m [] [] [] = m := by
  unfold cleanupMounts
  simp only [List.map_nil, List.append_nil, List.nil_append, hvm, hv, Option.getD_some,
    splitMounts_nil, filterVolumes_nil_removed]
  rw [← hvm, ← hv]

theorem updateMounts_id (m : Manifest) (vm : List Mount) (vl : List Volume)
    (hvm : m.container.volumeMounts = some vm) (hv : m.volumes = some vl) :
    updateMounts m [] [] [] = m := by
  unfold updateMounts
  rw [cleanupMounts_id m vm vl hvm hv]
  simp only [addHostMounts, addTmpfsMounts, List.append_nil, hvm, hv, Option.getD_some]
  rw [← hvm, ← hv]

theorem updateEnv_id (m : Manifest)
    (h : m.container.env = none ∨
      ∃ d, m.container.env = some d ∧ (dictKeys d).Nodup ∧ d ≠ []) :
    updateEnv m [] none [] = .ok m := by
  unfold updateEnv readDictionary
  simp only [Bind.bind, Except.bind, List.foldl_nil]
  rcases h with h | ⟨d, hd, hnd, hne⟩
  · simp [h, dictFromPairs, dictUpdate]
  · rw [hd]
    simp only [Option.getD_some]
    rw [dictFromPairs_self d hnd]
    have hupd : dictUpdate d [] = d := rfl
    rw [hupd, if_neg hne, ← hd]

theorem dictKeys_nodup_foldl_updates (explicit : List PyDict) :
    ∀ d, (dictKeys d).Nodup → (dictKeys (explicit.foldl dictUpdate d)).Nodup := by
  induction explicit with
  | nil => intro d h; simpa
  | cons e rest ih =>
    intro d h
    simp only [List.foldl_cons]
    exact ih (dictUpdate d e) (dictKeys_nodup_update d e h)

/-- **C7.**  Round-trip: building a manifest and then applying the
Manifest Updater with an empty directive set yields the original
manifest unchanged. -/
theorem c7_round_trip (args : CreateArgs) (inst : Str) (m : Manifest)
    (h : createContainerManifest args inst = .ok m) :
    updateMetadata m emptyUpdateArgs = .ok m := by
  rw [createContainerManifest_ok_iff] at h
  obtain ⟨envVars, rp, hrd, hrp, rfl⟩ := h
  rw [updateMetadata_ok_iff]
  refine ⟨_, ?_, rfl⟩
  show updateEnv (updateMounts (applyScalars1 _ emptyUpdateArgs) [] [] []) [] none [] = _
  have hs1 : ∀ mm : Manifest, applyScalars1 mm emptyUpdateArgs = mm := fun mm => rfl
  rw [hs1]
  rw [updateMounts_id _ _ _ rfl rfl]
  apply updateEnv_id
  by_cases hemp : args.container_env.foldl dictUpdate envVars = []
  · left; simp [hemp]
  · right
    refine ⟨args.container_env.foldl dictUpdate envVars, by simp [hemp], ?_, hemp⟩
    exact dictKeys_nodup_foldl_updates args.container_env envVars
      (readDictionary_nodup args.container_env_file envVars hrd)

/-- Witness for C7: a concrete build followed by an empty update. -/
theorem c7_round_trip_witness :
    createContainerManifest sampleCreateArgs "i".data = .ok sampleCreated ∧
    updateMetadata sampleCreated emptyUpdateArgs = .ok sampleCreated :=
  ⟨by rfl, c7_round_trip sampleCreateArgs "i".data sampleCreated (by rfl)⟩

/-! ## Claim C8: env-file reader error behavior -/

/-- A line the reader must reject: longer than one character, not a
comment, and containing no `=`. -/
def badLine (line : Str) : Prop :=
  1 < line.length ∧ line.head? ≠ some '#' ∧ '=' ∉ line

instance (line : Str) : Decidable (badLine line) := by
  unfold badLine
  infer_instance

/-- The key of a processed line, as the claim words it: everything left of
the first `=`. -/
def specKey (line : Str) : Str := line.takeWhile (fun c => c != '=')

/-- The value of a processed line: everything right of the first `=`,
with one trailing newline stripped. -/
def specVal (line : Str) : Str :=
  let v := line.drop ((specKey line).length + 1)
  if v.getLast? = some '\n' then v.dropLast else v

/-- The assignments of a file, in order: skipped lines (length ≤ 1 or
leading `#`) contribute nothing, every other line contributes its
key/value split. -/
def specAssignments : List Str → List (Str × Str)
  | [] => []
  | line :: rest =>
      if line.length ≤ 1 ∨ line.head? = some '#' then specAssignments rest
      else (specKey line, specVal line) :: specAssignments rest

theorem pyFind_none_iff (c : Char) : ∀ line, pyFind c line = none ↔ c ∉ line := by
  intro line
  induction line with
  | nil => simp [pyFind]
  | cons a rest ih =>
    simp only [pyFind, List.mem_cons]
    by_cases h : a = c
    · simp [h]
    · have h2 : ¬(c = a) := fun hh => h hh.symm
      simp [h, h2, ih]

theorem pyFind_mem (c : Char) (line : Str) (loc : Nat) (h : pyFind c line = some loc) :
    c ∈ line := by
  by_contra hc
  rw [← pyFind_none_iff] at hc
  rw [h] at hc
  cases hc

theorem pyFind_some_len (c : Char) :
    ∀ (line : Str) (loc : Nat), pyFind c line = some loc →
      loc = (line.takeWhile (fun x => x != c)).length := by
  intro line
  induction line with
  | nil => intro loc h; cases h
  | cons a rest ih =>
    intro loc h
    simp only [pyFind] at h
    by_cases ha : a = c
    · rw [if_pos ha] at h
      cases h
      simp [List.takeWhile_cons, ha]
    · rw [if_neg ha] at h
      cases hr : pyFind c rest with
      | none => rw [hr] at h; cases h
      | some l =>
        rw [hr] at h
        cases h
        have hne : (a != c) = true := by simpa using ha
        simp [List.takeWhile_cons, hne, ih l hr]

theorem take_takeWhile_length (p : Char → Bool) (line : Str) :
    line.take (line.takeWhile p).length = line.takeWhile p := by
  induction line with
  | nil => rfl
  | cons a rest ih =>
    by_cases h : p a
    · simp [List.takeWhile_cons, h, ih]
    · simp [List.takeWhile_cons, h]

theorem readLinesAux_ok_spec (filename : Str) :
    ∀ (lines : List Str) (i : Nat) (d : PyDict), (∀ line ∈ lines, ¬ badLine line) →
      readLinesAux filename i d lines =
        .ok ((specAssignments lines).foldl (fun acc kv => dictInsert acc kv.1 kv.2) d) := by
  intro lines
  induction lines with
  | nil => intro i d _; simp [readLinesAux, specAssignments]
  | cons line rest ih =>
    intro i d hgood
    have hrest : ∀ l ∈ rest, ¬ badLine l := fun l hl => hgood l (List.mem_cons_of_mem _ hl)
    simp only [readLinesAux, specAssignments]
    by_cases h1 : line.length ≤ 1
    · rw [if_pos h1, if_pos (Or.inl h1)]
      exact ih (i + 1) d hrest
    · rw [if_neg h1]
      by_cases h2 : line.head? = some '#'
      · rw [if_pos h2, if_pos (Or.inr h2)]
        exact ih (i + 1) d hrest
      · rw [if_neg h2, if_neg (by push_neg; exact ⟨by omega, h2⟩)]
        have hmem : '=' ∈ line := by
          by_contra hc
          exact hgood line (List.mem_cons_self _ _) ⟨by omega, h2, hc⟩
        cases hf : pyFind '=' line with
        | none =>
          rw [pyFind_none_iff] at hf
          exact absurd hmem hf
        | some loc =>
          have hloc := pyFind_some_len '=' line loc hf
          have hkey : line.take loc = specKey line := by
            rw [hloc]
            exact take_takeWhile_length _ line
          have hval : (if (line.drop (loc + 1)).getLast? = some '\n'
              then (line.drop (loc + 1)).dropLast else line.drop (loc + 1)) =
              specVal line := by
            unfold specVal specKey
            rw [hloc]
          simp only [List.foldl_cons]
          rw [hkey, hval]
          exact ih (i + 1) _ hrest

theorem readLinesAux_error_spec (filename : Str) :
    ∀ (lines : List Str) (i : Nat) (d : PyDict) (e : CmdError),
      readLinesAux filename i d lines = .error e →
      ∃ j, ∃ hj : j < lines.length, badLine (lines.get ⟨j, hj⟩) ∧
        e = .badFile filename (i + j) (lines.get ⟨j, hj⟩) ∧
        ∀ j' (hj' : j' < lines.length), j' < j → ¬ badLine (lines.get ⟨j', hj'⟩) := by
  intro lines
  induction lines with
  | nil => intro i d e h; cases h
  | cons line rest ih =>
    intro i d e h
    simp only [readLinesAux] at h
    by_cases h1 : line.length ≤ 1
    · rw [if_pos h1] at h
      obtain ⟨j, hj, hbad, he, hmin⟩ := ih (i + 1) d e h
      refine ⟨j + 1, by simpa using hj, by simpa using hbad, ?_, ?_⟩
      · have : i + (j + 1) = i + 1 + j := by omega
        rw [this]
        simpa using he
      · intro j' hj' hlt
        match j' with
        | 0 =>
          intro hcon
          have hc : badLine line := hcon
          exact absurd hc.1 (by omega)
        | j'' + 1 =>
          have := hmin j'' (by simpa using hj') (by omega)
          simpa using this
    · rw [if_neg h1] at h
      by_cases h2 : line.head? = some '#'
      · rw [if_pos h2] at h
        obtain ⟨j, hj, hbad, he, hmin⟩ := ih (i + 1) d e h
        refine ⟨j + 1, by simpa using hj, by simpa using hbad, ?_, ?_⟩
        · have : i + (j + 1) = i + 1 + j := by omega
          rw [this]
          simpa using he
        · intro j' hj' hlt
          match j' with
          | 0 => intro hcon; exact absurd h2 hcon.2.1
          | j'' + 1 =>
            have := hmin j'' (by simpa using hj') (by omega)
            simpa using this
      · rw [if_neg h2] at h
        cases hf : pyFind '=' line with
        | none =>
          rw [hf] at h
          cases h
          refine ⟨0, by simp, ?_, by simp, ?_⟩
          · exact (⟨by omega, h2, (pyFind_none_iff '=' line).mp hf⟩ : badLine line)
          · intro j' _ hlt
            exact absurd hlt (by omega)
        | some loc =>
          rw [hf] at h
          obtain ⟨j, hj, hbad, he, hmin⟩ := ih (i + 1) _ e h
          refine ⟨j + 1, by simpa using hj, by simpa using hbad, ?_, ?_⟩
          · have : i + (j + 1) = i + 1 + j := by omega
            rw [this]
            simpa using he
          · intro j' hj' hlt
            match j' with
            | 0 =>
              intro hcon
              exact absurd (pyFind_mem '=' line loc hf) hcon.2.2
            | j'' + 1 =>
              have := hmin j'' (by simpa using hj') (by omega)
              simpa using this

theorem readLinesAux_error_exists (filename : Str) :
    ∀ (lines : List Str) (i : Nat) (d : PyDict), (∃ line ∈ lines, badLine line) →
      ∃ e, readLinesAux filename i d lines = .error e := by
  intro lines
  induction lines with
  | nil => intro i d ⟨line, hmem, _⟩; cases hmem
  | cons line rest ih =>
    intro i d ⟨l, hmem, hbad⟩
    simp only [readLinesAux]
    by_cases h1 : line.length ≤ 1
    · rw [if_pos h1]
      apply ih (i + 1) d
      rcases List.mem_cons.mp hmem with rfl | hm
      · exact absurd hbad.1 (by omega)
      · exact ⟨l, hm, hbad⟩
    · rw [if_neg h1]
      by_cases h2 : line.head? = some '#'
      · rw [if_pos h2]
        apply ih (i + 1) d
        rcases List.mem_cons.mp hmem with rfl | hm
        · exact absurd h2 hbad.2.1
        · exact ⟨l, hm, hbad⟩
      · rw [if_neg h2]
        cases hf : pyFind '=' line with
        | none => exact ⟨_, rfl⟩
        | some loc =>
          apply ih (i + 1) _
          rcases List.mem_cons.mp hmem with rfl | hm
          · exact absurd (pyFind_mem '=' l loc hf) hbad.2.2
          · exact ⟨l, hm, hbad⟩

/-- **C8 counterexample.**  The file consisting of the single character
`A` (no terminating newline) yields one line that is non-empty, is not a
comment, and contains no `=` — yet the reader succeeds with an empty
mapping instead of raising the syntax error, because the reader skips
every line of length ≤ 1. -/
theorem c8_env_file_reader_counterexample :
    readLines "env".data (pyLines "A".data) = .ok [] ∧
    pyLines "A".data = ["A".data] ∧
    "A".data ≠ [] ∧
    "A".data.head? ≠ some '#' ∧
    '=' ∉ "A".data :=
  ⟨rfl, rfl, by decide, by decide, by decide⟩

/-- **C8 (amended).**  A line is skipped iff its length is ≤ 1 (this
covers empty lines, a bare newline, and a single-character final line
without terminator) or its first character is `#`; every remaining line
lacking `=` is a fatal syntax error reporting the file name and the
0-based index of the first such line; every processed line is split at
its first `=` into key (left) and value (right), with exactly one
trailing newline stripped from the value. -/
theorem c8_env_file_reader (filename : Str) (lines : List Str) :
    ((∀ line ∈ lines, ¬ badLine line) →
      readLines filename lines = .ok (dictFromPairs (specAssignments lines))) ∧
    (∀ e, readLines filename lines = .error e →
      ∃ j, ∃ hj : j < lines.length, badLine (lines.get ⟨j, hj⟩) ∧
        e = .badFile filename j (lines.get ⟨j, hj⟩) ∧
        ∀ j' (hj' : j' < lines.length), j' < j → ¬ badLine (lines.get ⟨j', hj'⟩)) ∧
    ((∃ line ∈ lines, badLine line) → ∃ e, readLines filename lines = .error e) := by
  refine ⟨?_, ?_, ?_⟩
  · intro h
    exact readLinesAux_ok_spec filename lines 0 [] h
  · intro e h
    obtain ⟨j, hj, hbad, he, hmin⟩ := readLinesAux_error_spec filename lines 0 [] e h
    exact ⟨j, hj, hbad, by simpa using he, hmin⟩
  · intro h
    exact readLinesAux_error_exists filename lines 0 [] h

/-- Witness for the amended C8: a well-formed file parses to its
assignments, a file with a bad line errors, and the error payload names
the file and the index of the first bad line. -/
theorem c8_env_file_reader_witness :
    readLines "f".data ["X=1\n".data] = .ok (dictFromPairs (specAssignments ["X=1\n".data])) ∧
    (∃ e, readLines "f".data ["BAD\n".data] = .error e) ∧
    (∃ j, ∃ hj : j < (["BAD\n".data] : List Str).length,
      badLine ((["BAD\n".data] : List Str).get ⟨j, hj⟩) ∧
      CmdError.badFile "f".data 0 "BAD\n".data =
        .badFile "f".data j ((["BAD\n".data] : List Str).get ⟨j, hj⟩) ∧
      ∀ j' (hj' : j' < (["BAD\n".data] : List Str).length), j' < j →
        ¬ badLine ((["BAD\n".data] : List Str).get ⟨j', hj'⟩)) :=
  ⟨(c8_env_file_reader "f".data ["X=1\n".data]).1 (by decide),
   (c8_env_file_reader "f".data ["BAD\n".data]).2.2 ⟨"BAD\n".data, by decide, by decide⟩,
   (c8_env_file_reader "f".data ["BAD\n".data]).2.1 (.badFile "f".data 0 "BAD\n".data)
     (by rfl)⟩

/-! ## Claim C10 -/

/-- **C10.**  For every env file that the reader accepts, the resulting
mapping binds each key to the value of its last assignment line in file
order, and each key appears exactly once. -/
theorem c10_env_file_last_wins (filename : Str) (lines : List Str) (d : PyDict)
    (h : readLines filename lines = .ok d) :
    (dictKeys d).Nodup ∧
    ∀ k, dictGet? d k = lookupLast (specAssignments lines) k := by
  have hnobad : ∀ line ∈ lines, ¬ badLine line := by
    intro line hmem hbad
    obtain ⟨e, he⟩ := readLinesAux_error_exists filename lines 0 [] ⟨line, hmem, hbad⟩
    unfold readLines at h
    rw [he] at h
    cases h
  have hok := readLinesAux_ok_spec filename lines 0 [] hnobad
  unfold readLines at h
  rw [hok] at h
  have hd : d = dictFromPairs (specAssignments lines) := by
    injection h with h'
    exact h'.symm
  subst hd
  exact ⟨dictKeys_nodup_fromPairs _, fun k => dictGet?_fromPairs _ k⟩

/-- Witness for C10: duplicate assignments to `A`; the last one wins and
keys are unique. -/
theorem c10_env_file_last_wins_witness :
    readLines "f".data ["A=1\n".data, "#c\n".data, "A=2\n".data, "B=3\n".data] =
      .ok [("A".data, "2".data), ("B".data, "3".data)] ∧
    ((dictKeys [("A".data, "2".data), ("B".data, "3".data)]).Nodup ∧
      ∀ k, dictGet? [("A".data, "2".data), ("B".data, "3".data)] k =
        lookupLast (specAssignments
          ["A=1\n".data, "#c\n".data, "A=2\n".data, "B=3\n".data]) k) :=
  ⟨by rfl,
   c10_env_file_last_wins "f".data
     ["A=1\n".data, "#c\n".data, "A=2\n".data, "B=3\n".data]
     [("A".data, "2".data), ("B".data, "3".data)] (by rfl)⟩

/-! ## Claim C9: port-mapping validation -/

/-- An entry the parser accepts, as the amended claim words it:
`PORT:TARGET:PROTO` with non-empty digit runs, a protocol from the fixed
allowed set, and (Python `$` semantics) at most one final newline after
the protocol. -/
def PortEntryAccepted (s : Str) : Prop :=
  ∃ p t proto rest, s = p ++ ':' :: t ++ ':' :: proto ++ rest ∧
    p ≠ [] ∧ (∀ c ∈ p, c.isDigit) ∧ t ≠ [] ∧ (∀ c ∈ t, c.isDigit) ∧
    proto ∈ allowedProtocols ∧ (rest = [] ∨ rest = ['\n'])

theorem takeWhile_append_all (q : Char → Bool) (A B : Str) (hA : ∀ a ∈ A, q a)
    (hB : ∀ b, B.head? = some b → q b = false) :
    (A ++ B).takeWhile q = A := by
  induction A with
  | nil =>
    simp only [List.nil_append]
    cases B with
    | nil => simp
    | cons b rest =>
      have := hB b rfl
      simp [List.takeWhile_cons, this]
  | cons a arest ih =>
    have ha : q a = true := hA a (List.mem_cons_self _ _)
    simp only [List.cons_append, List.takeWhile_cons, ha, if_true]
    rw [ih (fun x hx => hA x (List.mem_cons_of_mem _ hx))]

theorem takeWhile_append_drop_self (q : Char → Bool) (l : Str) :
    l.takeWhile q ++ l.drop (l.takeWhile q).length = l := by
  have h := List.take_append_drop ((l.takeWhile q).length) l
  rw [take_takeWhile_length] at h
  exact h

theorem head?_tail_cons {l r : Str} {c : Char} (hh : l.head? = some c) (ht : l.tail = r) :
    l = c :: r := by
  cases l with
  | nil => cases hh
  | cons a rest =>
    simp only [List.head?] at hh
    injection hh with hc
    rw [hc] at *
    simpa using ht

theorem splitNum_some (s ds r : Str) (h : splitNum s = some (ds, r)) :
    s = ds ++ ':' :: r ∧ ds ≠ [] ∧ ∀ c ∈ ds, c.isDigit := by
  unfold splitNum at h
  by_cases h1 : s.takeWhile Char.isDigit = []
  · rw [if_pos h1] at h; cases h
  · rw [if_neg h1] at h
    by_cases hh : (s.drop (s.takeWhile Char.isDigit).length).head? = some ':'
    · rw [if_pos hh] at h
      simp only [Option.some.injEq, Prod.mk.injEq] at h
      obtain ⟨rfl, rfl⟩ := h
      refine ⟨?_, h1, fun c hc => List.mem_takeWhile_imp hc⟩
      have hcons : s.drop (s.takeWhile Char.isDigit).length =
          ':' :: (s.drop (s.takeWhile Char.isDigit).length).tail :=
        head?_tail_cons hh rfl
      calc s = s.takeWhile Char.isDigit ++ s.drop (s.takeWhile Char.isDigit).length :=
            (takeWhile_append_drop_self Char.isDigit s).symm
        _ = s.takeWhile Char.isDigit ++
              ':' :: (s.drop (s.takeWhile Char.isDigit).length).tail := by rw [← hcons]
    · rw [if_neg hh] at h; cases h

theorem splitNum_build (ds r : Str) (h : ds ≠ []) (hd : ∀ c ∈ ds, c.isDigit) :
    splitNum (ds ++ ':' :: r) = some (ds, r) := by
  unfold splitNum
  have htw : (ds ++ ':' :: r).takeWhile Char.isDigit = ds :=
    takeWhile_append_all Char.isDigit ds (':' :: r) hd (by intro b hb; cases hb; rfl)
  rw [htw, if_neg h, List.drop_left]
  simp

theorem matchPortMapping_some (s p t proto : Str)
    (h : matchPortMapping s = some (p, t, proto)) :
    ∃ rest, s = p ++ ':' :: t ++ ':' :: proto ++ rest ∧
      p ≠ [] ∧ (∀ c ∈ p, c.isDigit) ∧ t ≠ [] ∧ (∀ c ∈ t, c.isDigit) ∧
      proto ≠ [] ∧ (∀ c ∈ proto, isPySpace c = false) ∧
      (rest = [] ∨ rest = ['\n']) := by
  unfold matchPortMapping at h
  split at h
  · cases h
  next ds1 r2 h1 =>
    split at h
    · cases h
    next ds2 r4 h2 =>
      by_cases h3 : r4.takeWhile (fun c => !isPySpace c) = []
      · rw [if_pos h3] at h; cases h
      · rw [if_neg h3] at h
        by_cases h4 : r4.drop (r4.takeWhile (fun c => !isPySpace c)).length = [] ∨
            r4.drop (r4.takeWhile (fun c => !isPySpace c)).length = ['\n']
        · rw [if_pos h4] at h
          simp only [Option.some.injEq, Prod.mk.injEq] at h
          obtain ⟨rfl, rfl, rfl⟩ := h
          obtain ⟨hs1, hne1, hd1⟩ := splitNum_some s _ _ h1
          obtain ⟨hs2, hne2, hd2⟩ := splitNum_some r2 _ _ h2
          refine ⟨r4.drop (r4.takeWhile (fun c => !isPySpace c)).length, ?_, hne1, hd1,
            hne2, hd2, h3, ?_, h4⟩
          · rw [hs1, hs2]
            conv_lhs => rw [← takeWhile_append_drop_self (fun c => !isPySpace c) r4]
            simp
          · intro c hc
            have h5 := List.mem_takeWhile_imp hc
            simpa using h5
        · rw [if_neg h4] at h; cases h

theorem matchPortMapping_build (p t proto rest : Str) (hp : p ≠ [])
    (hpd : ∀ c ∈ p, c.isDigit) (ht : t ≠ []) (htd : ∀ c ∈ t, c.isDigit)
    (hproto : proto ≠ []) (hns : ∀ c ∈ proto, isPySpace c = false)
    (hrest : rest = [] ∨ rest = ['\n']) :
    matchPortMapping (p ++ ':' :: t ++ ':' :: proto ++ rest) = some (p, t, proto) := by
  unfold matchPortMapping
  have hshape : p ++ ':' :: t ++ ':' :: proto ++ rest =
      p ++ ':' :: (t ++ ':' :: (proto ++ rest)) := by simp
  rw [hshape, splitNum_build p (t ++ ':' :: (proto ++ rest)) hp hpd]
  have htw : (proto ++ rest).takeWhile (fun c => !isPySpace c) = proto := by
    apply takeWhile_append_all _ _ _ (fun c hc => by simp [hns c hc])
    intro b hb
    rcases hrest with rfl | rfl
    · simp at hb
    · simp only [List.head?] at hb
      injection hb with hbe
      rw [← hbe]
      decide
  simp only [splitNum_build t (proto ++ rest) ht htd, htw, List.drop_left,
    if_neg hproto, if_pos hrest]

theorem validate_error_msgs : ∀ (l : List Str) (e : CmdError),
    validateAndParsePortMapping l = .error e →
      e = .invalidArgument portMappingsFlag portFormatMsg ∨
      e = .invalidArgument portMappingsFlag portProtocolMsg := by
  intro l
  induction l with
  | nil => intro e h; cases h
  | cons pm rest ih =>
    intro e h
    unfold validateAndParsePortMapping at h
    split at h
    · simp only [Except.error.injEq] at h
      exact Or.inl h.symm
    next port target protocol hm =>
      by_cases hpr : protocol ∈ allowedProtocols
      · rw [if_pos hpr] at h
        cases hv : validateAndParsePortMapping rest with
        | error e' =>
          rw [hv] at h
          simp only [Except.map, Except.error.injEq] at h
          subst h
          exact ih e' hv
        | ok r' =>
          rw [hv] at h
          simp [Except.map] at h
      · rw [if_neg hpr] at h
        simp only [Except.error.injEq] at h
        exact Or.inr h.symm

theorem validate_ok_spec : ∀ (l : List Str) (r : List PortCfg),
    validateAndParsePortMapping l = .ok r →
      r.length = l.length ∧
      (∀ i (hi : i < l.length) (hri : i < r.length) p t proto,
        matchPortMapping (l.get ⟨i, hi⟩) = some (p, t, proto) →
        r.get ⟨i, hri⟩ = ⟨decodeDec t, decodeDec p, proto⟩) ∧
      (∀ s ∈ l, ∃ p t proto,
        matchPortMapping s = some (p, t, proto) ∧ proto ∈ allowedProtocols) := by
  intro l
  induction l with
  | nil =>
    intro r h
    cases h
    exact ⟨rfl, fun i hi => absurd hi (by simp), fun s hs => absurd hs (by simp)⟩
  | cons pm rest ih =>
    intro r h
    unfold validateAndParsePortMapping at h
    split at h
    · cases h
    next port target protocol hm =>
      by_cases hpr : protocol ∈ allowedProtocols
      · rw [if_pos hpr] at h
        cases hv : validateAndParsePortMapping rest with
        | error e' => rw [hv] at h; simp [Except.map] at h
        | ok r' =>
          rw [hv] at h
          simp only [Except.map, Except.ok.injEq] at h
          subst h
          obtain ⟨hlen, hidx, hall⟩ := ih r' hv
          refine ⟨by simp [hlen], ?_, ?_⟩
          · intro i hi hri p t proto hmatch
            match i with
            | 0 =>
              simp only [List.get] at hmatch ⊢
              rw [hm] at hmatch
              simp only [Option.some.injEq, Prod.mk.injEq] at hmatch
              obtain ⟨rfl, rfl, rfl⟩ := hmatch
              rfl
            | i + 1 =>
              simp only [List.get] at hmatch ⊢
              exact hidx i (by simpa using hi) (by simpa using hri) p t proto hmatch
          · intro s hs
            rcases List.mem_cons.mp hs with rfl | hs'
            · exact ⟨port, target, protocol, hm, hpr⟩
            · exact hall s hs'
      · rw [if_neg hpr] at h
        cases h

theorem validate_ok_exists : ∀ (l : List Str),
    (∀ s ∈ l, ∃ p t proto,
      matchPortMapping s = some (p, t, proto) ∧ proto ∈ allowedProtocols) →
    ∃ r, validateAndParsePortMapping l = .ok r := by
  intro l
  induction l with
  | nil => intro _; exact ⟨[], rfl⟩
  | cons pm rest ih =>
    intro hall
    obtain ⟨p, t, proto, hm, hpr⟩ := hall pm (List.mem_cons_self _ _)
    obtain ⟨r', hr'⟩ := ih (fun s hs => hall s (List.mem_cons_of_mem _ hs))
    refine ⟨⟨decodeDec t, decodeDec p, proto⟩ :: r', ?_⟩
    unfold validateAndParsePortMapping
    rw [hm]
    simp only [if_pos hpr, hr', Except.map]

theorem accepted_iff (s : Str) :
    (∃ p t proto, matchPortMapping s = some (p, t, proto) ∧ proto ∈ allowedProtocols) ↔
      PortEntryAccepted s := by
  constructor
  · rintro ⟨p, t, proto, hm, hpr⟩
    obtain ⟨rest, hs, hp, hpd, ht, htd, _, _, hrest⟩ := matchPortMapping_some s p t proto hm
    exact ⟨p, t, proto, rest, hs, hp, hpd, ht, htd, hpr, hrest⟩
  · rintro ⟨p, t, proto, rest, hs, hp, hpd, ht, htd, hpr, hrest⟩
    have hproto : proto ≠ [] ∧ ∀ c ∈ proto, isPySpace c = false := by
      have : proto = "TCP".data ∨ proto = "UDP".data := by
        simpa [allowedProtocols] using hpr
      rcases this with rfl | rfl
      · exact ⟨by decide, by decide⟩
      · exact ⟨by decide, by decide⟩
    refine ⟨p, t, proto, ?_, hpr⟩
    rw [hs]
    exact matchPortMapping_build p t proto rest hp hpd ht htd hproto.1 hproto.2 hrest

/-- **C9 counterexample.**  The invalid entry `"bad"` raises the
validation error, but the error names only the flag and a fixed
expected-format message: the offending value `"bad"` appears nowhere in
the error.  Moreover `"1:2:TCP\n"` — which does not match
`\d+:\d+:(TCP|UDP)` as a whole string — is accepted, because Python's `$`
also matches just before one final newline. -/
theorem c9_port_mapping_validation_counterexample :
    validateAndParsePortMapping ["bad".data] =
      .error (.invalidArgument portMappingsFlag portFormatMsg) ∧
    ¬ ("bad".data <:+: portFormatMsg) ∧
    ¬ ("bad".data <:+: portMappingsFlag) ∧
    ¬ ("bad".data <:+: portProtocolMsg) ∧
    validateAndParsePortMapping ["1:2:TCP\n".data] = .ok [⟨2, 1, "TCP".data⟩] :=
  ⟨rfl, by decide, by decide, by decide, rfl⟩

/-- **C9 (amended).**  An entry is accepted iff it is
`PORT:TARGET:PROTOCOL` with non-empty digit runs, protocol in
`{TCP, UDP}`, and at most one final trailing newline (Python `$`).  Any
other entry aborts with a fatal validation error whose payload names the
`--port-mappings` flag and carries one of two fixed messages (the
expected grammar, or the allowed protocol set) — never the offending
value.  For a valid list the output mirrors the input order with no
deduplication, each entry mapped to
`{containerPort: TARGET, hostPort: PORT, protocol}`. -/
theorem c9_port_mapping_validation (l : List Str) :
    ((∃ r, validateAndParsePortMapping l = .ok r) ↔ ∀ s ∈ l, PortEntryAccepted s) ∧
    (∀ r, validateAndParsePortMapping l = .ok r →
      r.length = l.length ∧
      ∀ i (hi : i < l.length) (hri : i < r.length) p t proto rest,
        l.get ⟨i, hi⟩ = p ++ ':' :: t ++ ':' :: proto ++ rest →
        p ≠ [] → (∀ c ∈ p, c.isDigit) → t ≠ [] → (∀ c ∈ t, c.isDigit) →
        proto ∈ allowedProtocols → (rest = [] ∨ rest = ['\n']) →
        r.get ⟨i, hri⟩ = ⟨decodeDec t, decodeDec p, proto⟩) ∧
    (∀ e, validateAndParsePortMapping l = .error e →
      e = .invalidArgument portMappingsFlag portFormatMsg ∨
      e = .invalidArgument portMappingsFlag portProtocolMsg) := by
  refine ⟨⟨?_, ?_⟩, ?_, validate_error_msgs l⟩
  · rintro ⟨r, hr⟩ s hs
    exact (accepted_iff s).mp ((validate_ok_spec l r hr).2.2 s hs)
  · intro hall
    exact validate_ok_exists l (fun s hs => (accepted_iff s).mpr (hall s hs))
  · intro r hr
    obtain ⟨hlen, hidx, _⟩ := validate_ok_spec l r hr
    refine ⟨hlen, ?_⟩
    intro i hi hri p t proto rest hdecomp hp hpd ht htd hpr hrest
    have hproto : proto ≠ [] ∧ ∀ c ∈ proto, isPySpace c = false := by
      have : proto = "TCP".data ∨ proto = "UDP".data := by
        simpa [allowedProtocols] using hpr
      rcases this with rfl | rfl
      · exact ⟨by decide, by decide⟩
      · exact ⟨by decide, by decide⟩
    have hmatch : matchPortMapping (l.get ⟨i, hi⟩) = some (p, t, proto) := by
      rw [hdecomp]
      exact matchPortMapping_build p t proto rest hp hpd ht htd hproto.1 hproto.2 hrest
    exact hidx i hi hri p t proto hmatch

/-- Witness for the amended C9: a valid entry parses (via the acceptance
characterization), and a raised error is one of the two fixed messages. -/
theorem c9_port_mapping_validation_witness :
    validateAndParsePortMapping ["80:8080:TCP".data] = .ok [⟨8080, 80, "TCP".data⟩] ∧
    (∃ r, validateAndParsePortMapping ["80:8080:TCP".data] = .ok r) ∧
    (CmdError.invalidArgument portMappingsFlag portFormatMsg =
        .invalidArgument portMappingsFlag portFormatMsg ∨
      CmdError.invalidArgument portMappingsFlag portFormatMsg =
        .invalidArgument portMappingsFlag portProtocolMsg) :=
  ⟨by rfl,
   (c9_port_mapping_validation ["80:8080:TCP".data]).1.mpr (by
      intro s hs
      simp only [List.mem_singleton] at hs
      subst hs
      exact ⟨"80".data, "8080".data, "TCP".data, [], by decide, by decide, by decide,
        by decide, by decide, by decide, Or.inl rfl⟩),
   (c9_port_mapping_validation ["bad".data]).2.2
     (.invalidArgument portMappingsFlag portFormatMsg) (by rfl)⟩

/-! ## Claim C4: Konlet image selection -/

theorem imageKeyLE_trans (a b c : Nat × CosImage)
    (h1 : imageKeyLE a b) (h2 : imageKeyLE b c) : imageKeyLE a c := by
  simp only [imageKeyLE, decide_eq_true_eq] at h1 h2 ⊢
  omega

theorem imageKeyLE_total (a b : Nat × CosImage) :
    (imageKeyLE a b || imageKeyLE b a) = true := by
  rw [Bool.or_eq_true]
  simp only [imageKeyLE, decide_eq_true_eq]
  omega

theorem getLast?_pairwise_max {α : Type} (P : α → α → Prop) :
    ∀ (l : List α), l.Pairwise P → ∀ y, l.getLast? = some y →
      y ∈ l ∧ ∀ x ∈ l, x = y ∨ P x y := by
  intro l
  induction l with
  | nil => intro _ y hy; cases hy
  | cons a rest ih =>
    intro hp y hy
    cases rest with
    | nil =>
      simp only [List.getLast?_singleton, Option.some.injEq] at hy
      subst hy
      exact ⟨List.mem_singleton_self a, fun x hx => Or.inl (List.mem_singleton.mp hx)⟩
    | cons b rest' =>
      rw [List.getLast?_cons_cons] at hy
      obtain ⟨hmem, hmax⟩ := ih (List.Pairwise.of_cons hp) y hy
      refine ⟨List.mem_cons_of_mem a hmem, ?_⟩
      intro x hx
      rcases List.mem_cons.mp hx with rfl | hx'
      · exact Or.inr ((List.pairwise_cons.mp hp).1 y hmem)
      · exact hmax x hx'

theorem mem_familyMatches (family : Str) (images : List CosImage) (v : Nat)
    (im : CosImage) :
    (v, im) ∈ familyMatches family images ↔
      im ∈ images ∧ parseFamilyVersion family im.name = some v := by
  simp only [familyMatches, List.mem_filterMap, Option.map_eq_some']
  constructor
  · rintro ⟨a, ha, v0, hv0, hpair⟩
    simp only [Prod.mk.injEq] at hpair
    obtain ⟨rfl, rfl⟩ := hpair
    exact ⟨ha, hv0⟩
  · rintro ⟨hmem, hparse⟩
    exact ⟨im, hmem, v, hparse, rfl⟩

theorem selectForFamily_some_spec (family : Str) (images : List CosImage) (link : Str)
    (h : selectForFamily family images = some link) :
    ∃ v im, (v, im) ∈ familyMatches family images ∧ 62 ≤ v ∧ link = im.selfLink ∧
      ∀ v' im', (v', im') ∈ familyMatches family images →
        v' < v ∨ (v' = v ∧ im'.creationTimestamp ≤ im.creationTimestamp) := by
  unfold selectForFamily at h
  split at h
  · cases h
  next v im hlast =>
    by_cases hv : 62 ≤ v
    · rw [if_pos hv] at h
      injection h with h
      subst h
      have hsorted := @List.sorted_mergeSort _ imageKeyLE imageKeyLE_trans
        imageKeyLE_total (familyMatches family images)
      obtain ⟨hmem, hmax⟩ := getLast?_pairwise_max (fun a b => imageKeyLE a b = true)
        _ hsorted (v, im) hlast
      refine ⟨v, im, List.mem_mergeSort.mp hmem, hv, rfl, ?_⟩
      intro v' im' hmem'
      have hmem'' : (v', im') ∈
          (familyMatches family images).mergeSort imageKeyLE :=
        List.mem_mergeSort.mpr hmem'
      rcases hmax _ hmem'' with heq | hle
      · simp only [Prod.mk.injEq] at heq
        exact Or.inr ⟨heq.1, heq.2 ▸ Nat.le_refl _⟩
      · simp only [imageKeyLE, decide_eq_true_eq] at hle
        exact hle
    · rw [if_neg hv] at h
      cases h

theorem selectForFamily_none_iff (family : Str) (images : List CosImage) :
    selectForFamily family images = none ↔
      ¬ ∃ v im, (v, im) ∈ familyMatches family images ∧ 62 ≤ v := by
  unfold selectForFamily
  cases hlast : ((familyMatches family images).mergeSort imageKeyLE).getLast? with
  | none =>
    have hnil : (familyMatches family images).mergeSort imageKeyLE = [] :=
      List.getLast?_eq_none_iff.mp hlast
    have hempty : familyMatches family images = [] := by
      have hperm := List.mergeSort_perm (familyMatches family images) imageKeyLE
      rw [hnil] at hperm
      exact (List.Perm.nil_eq hperm).symm
    constructor
    · rintro _ ⟨v, im, hmem, _⟩
      rw [hempty] at hmem
      cases hmem
    · intro _
      rfl
  | some pr =>
    obtain ⟨v, im⟩ := pr
    have hsorted := @List.sorted_mergeSort _ imageKeyLE imageKeyLE_trans
      imageKeyLE_total (familyMatches family images)
    obtain ⟨hmem, hmax⟩ := getLast?_pairwise_max (fun a b => imageKeyLE a b = true)
      _ hsorted (v, im) hlast
    by_cases hv : 62 ≤ v
    · show (if 62 ≤ v then some im.selfLink else none) = none ↔ _
      rw [if_pos hv]
      constructor
      · intro hcon; cases hcon
      · intro hcon
        exact absurd ⟨v, im, List.mem_mergeSort.mp hmem, hv⟩ hcon
    · show (if 62 ≤ v then some im.selfLink else none) = none ↔ _
      rw [if_neg hv]
      constructor
      · rintro _ ⟨v', im', hmem', hv'⟩
        have hmem'' : (v', im') ∈
            (familyMatches family images).mergeSort imageKeyLE :=
          List.mem_mergeSort.mpr hmem'
        rcases hmax _ hmem'' with heq | hle
        · simp only [Prod.mk.injEq] at heq
          omega
        · simp only [imageKeyLE, decide_eq_true_eq] at hle
          omega
      · intro _
        rfl

/-- A release family qualifies when some catalog image matches its
pattern with version ≥ 62. -/
def FamilyQualifies (family : Str) (images : List CosImage) : Prop :=
  ∃ v im, (v, im) ∈ familyMatches family images ∧ 62 ≤ v

/-- `link` is the self-link of a newest qualifying image of the family:
its `(version, timestamp)` pair is maximal among all images matching the
family pattern (so with equal versions the later timestamp wins), and its
version meets the minimum 62. -/
def SelectsNewest (family : Str) (images : List CosImage) (link : Str) : Prop :=
  ∃ v im, (v, im) ∈ familyMatches family images ∧ 62 ≤ v ∧ link = im.selfLink ∧
    ∀ v' im', (v', im') ∈ familyMatches family images →
      v' < v ∨ (v' = v ∧ im'.creationTimestamp ≤ im.creationTimestamp)

/-- **C4.**  The family-fallback Image Selector tries stable, beta, dev
in that order; the returned self-link belongs to a maximal
`(version, timestamp)` image of the first family containing an image of
version ≥ 62, lower-priority families are never consulted once one
qualifies, same-version ties are won by the later timestamp, and when no
family qualifies the selector fails with the no-matching-image error. -/
theorem c4_konlet_image_selection (images : List CosImage) :
    (∀ link, expandKonletCosImage images = .ok link →
      (FamilyQualifies "stable".data images ∧ SelectsNewest "stable".data images link) ∨
      (¬ FamilyQualifies "stable".data images ∧ FamilyQualifies "beta".data images ∧
        SelectsNewest "beta".data images link) ∨
      (¬ FamilyQualifies "stable".data images ∧ ¬ FamilyQualifies "beta".data images ∧
        FamilyQualifies "dev".data images ∧ SelectsNewest "dev".data images link)) ∧
    (∀ e, expandKonletCosImage images = .error e ↔
      (e = .noCosImage ∧ ¬ FamilyQualifies "stable".data images ∧
        ¬ FamilyQualifies "beta".data images ∧ ¬ FamilyQualifies "dev".data images)) := by
  have hq : ∀ fam link, selectForFamily fam images = some link →
      FamilyQualifies fam images ∧ SelectsNewest fam images link := by
    intro fam link h
    obtain ⟨v, im, hmem, hv, hlink, hmax⟩ := selectForFamily_some_spec fam images link h
    exact ⟨⟨v, im, hmem, hv⟩, ⟨v, im, hmem, hv, hlink, hmax⟩⟩
  unfold expandKonletCosImage konletFamilies
  cases hst : selectForFamily "stable".data images with
  | some l1 =>
    simp only [List.findSome?_cons, hst]
    constructor
    · intro link h
      injection h with h
      subst h
      exact Or.inl (hq _ l1 hst)
    · intro e
      constructor
      · intro h; cases h
      · rintro ⟨_, hq1, _, _⟩
        exact absurd (hq _ l1 hst).1 hq1
  | none =>
    have hnq1 := (selectForFamily_none_iff "stable".data images).mp hst
    cases hbe : selectForFamily "beta".data images with
    | some l2 =>
      simp only [List.findSome?_cons, hst, hbe]
      constructor
      · intro link h
        injection h with h
        subst h
        exact Or.inr (Or.inl ⟨hnq1, (hq _ l2 hbe).1, (hq _ l2 hbe).2⟩)
      · intro e
        constructor
        · intro h; cases h
        · rintro ⟨_, _, hq2, _⟩
          exact absurd (hq _ l2 hbe).1 hq2
    | none =>
      have hnq2 := (selectForFamily_none_iff "beta".data images).mp hbe
      cases hde : selectForFamily "dev".data images with
      | some l3 =>
        simp only [List.findSome?_cons, hst, hbe, hde]
        constructor
        · intro link h
          injection h with h
          subst h
          exact Or.inr (Or.inr ⟨hnq1, hnq2, (hq _ l3 hde).1, (hq _ l3 hde).2⟩)
        · intro e
          constructor
          · intro h; cases h
          · rintro ⟨_, _, _, hq3⟩
            exact absurd (hq _ l3 hde).1 hq3
      | none =>
        have hnq3 := (selectForFamily_none_iff "dev".data images).mp hde
        simp only [List.findSome?_cons, hst, hbe, hde, List.findSome?_nil]
        constructor
        · intro link h; cases h
        · intro e
          constructor
          · intro h
            injection h with h
            exact ⟨h.symm, hnq1, hnq2, hnq3⟩
          · rintro ⟨rfl, _, _, _⟩
            rfl

/-- The claim's example catalog: stable offers only version 60, beta
offers version 63. -/
def konletSampleImages : List CosImage :=
  [⟨"cos-stable-60-x".data, 5, "L1".data⟩, ⟨"cos-beta-63-y".data, 7, "L2".data⟩]

/-- Witness for C4: the selector skips the stable family (version 60 < 62)
and returns the beta image's self-link; on an empty catalog it fails with
the no-matching-image error. -/
theorem c4_konlet_image_selection_witness :
    expandKonletCosImage konletSampleImages = .ok "L2".data ∧
    ((FamilyQualifies "stable".data konletSampleImages ∧
        SelectsNewest "stable".data konletSampleImages "L2".data) ∨
      (¬ FamilyQualifies "stable".data konletSampleImages ∧
        FamilyQualifies "beta".data konletSampleImages ∧
        SelectsNewest "beta".data konletSampleImages "L2".data) ∨
      (¬ FamilyQualifies "stable".data konletSampleImages ∧
        ¬ FamilyQualifies "beta".data konletSampleImages ∧
        FamilyQualifies "dev".data konletSampleImages ∧
        SelectsNewest "dev".data konletSampleImages "L2".data)) ∧
    expandKonletCosImage [] = .error .noCosImage := by
  have hm1 : familyMatches "stable".data konletSampleImages =
      [(60, ⟨"cos-stable-60-x".data, 5, "L1".data⟩)] := by rfl
  have hm2 : familyMatches "beta".data konletSampleImages =
      [(63, ⟨"cos-beta-63-y".data, 7, "L2".data⟩)] := by rfl
  have hst : selectForFamily "stable".data konletSampleImages = none := by
    unfold selectForFamily
    rw [hm1, List.mergeSort_singleton]
    rfl
  have hbe : selectForFamily "beta".data konletSampleImages = some "L2".data := by
    unfold selectForFamily
    rw [hm2, List.mergeSort_singleton]
    rfl
  have hexpand : expandKonletCosImage konletSampleImages = .ok "L2".data := by
    unfold expandKonletCosImage konletFamilies
    simp only [List.findSome?_cons, hst, hbe]
  have hempty : ∀ fam, ¬ FamilyQualifies fam ([] : List CosImage) := by
    rintro fam ⟨v, im, hmem, _⟩
    exact absurd hmem (List.not_mem_nil _)
  refine ⟨hexpand,
    (c4_konlet_image_selection konletSampleImages).1 "L2".data hexpand, ?_⟩
  exact ((c4_konlet_image_selection []).2 .noCosImage).mpr
    ⟨rfl, hempty _, hempty _, hempty _⟩
